import Mathlib

/-!
Verification of the chain-of-draft prompt tool's core components against its
specification.  The Python sources are shallowly embedded: strings are lists
of characters, Python `str.split()` / `str.strip()` / `str.lower()` and the
step-marker regular expressions are modelled as executable Lean functions,
floating-point arithmetic on the small factor values is modelled over `ℚ`
(with Python's banker's rounding for `round`), and the two external
collaborators (generative-text backend, analytics store) are passed in as
explicit values, so every function here is pure and computable.
-/

unseal Rat.mul Rat.inv Rat.add Rat.sub

namespace CoD

/-- Python strings are modelled as lists of characters. -/
abbrev Str := List Char

/-- Build a character list from a Lean string literal. -/
def ofS (s : String) : Str := s.toList

/-- Whitespace characters recognised by Python's `str.split()` / `str.strip()`
and by the regex class `\s` (restricted to the ASCII range, which covers every
character the sources and spec mention). -/
def isWs (c : Char) : Bool :=
  c = ' ' || c = '\t' || c = '\n' || c = '\r' || c = '\x0b' || c = '\x0c'

/-- Fuel-driven worker for `wtokens`; the fuel argument makes the recursion
structural (so that the kernel can evaluate it), and is irrelevant as soon
as it is at least the length of the string. -/
def wtokensF : ℕ → Str → List Str
  | 0, _ => []
  | fuel + 1, s =>
    match s with
    | [] => []
    | c :: cs =>
      if isWs c then wtokensF fuel cs
      else (c :: cs.takeWhile (fun d => !isWs d)) :: wtokensF fuel (cs.dropWhile (fun d => !isWs d))

/-- Python `str.split()` with no argument: split on runs of whitespace and
drop empty fields. -/
def wtokens (s : Str) : List Str := wtokensF s.length s

/-- Remove trailing whitespace. -/
def stripEnd : Str → Str
  | [] => []
  | c :: cs =>
    if isWs c = true ∧ (stripEnd cs).isEmpty = true then [] else c :: stripEnd cs

/-- Python `str.strip()`: remove leading and trailing whitespace. -/
def pyStrip (s : Str) : Str := stripEnd (s.dropWhile isWs)

/-- Join a list of strings with a single separator character
(Python `sep.join(...)` for a one-character separator). -/
def joinCh (sep : Char) (ls : List Str) : Str :=
  List.intercalate [sep] ls

/-- Python `" ".join(words)`. -/
def joinSp (ws : List Str) : Str := joinCh ' ' ws

/-- Python `"\n".join(lines)`. -/
def joinNL (ls : List Str) : Str := joinCh '\n' ls

/-- Python `str.split(sep)` for a one-character separator: keeps empty fields,
result is always non-empty. -/
def splitCh (sep : Char) : Str → List Str
  | [] => [[]]
  | c :: r =>
    match splitCh sep r with
    | [] => [[]]
    | p :: ps => if c = sep then [] :: p :: ps else (c :: p) :: ps

/-- Python `text.split('\n')`. -/
def splitNL (s : Str) : List Str := splitCh '\n' s

/-- Decompose a string at the first occurrence of the literal `####` marker:
`some (before, after)` when the marker occurs, `none` otherwise.  This is
both the specification-level notion of "first occurrence" and the worker for
the embedding of Python's `split("####")`. -/
def hashScan : Str → Option (Str × Str)
  | '#' :: '#' :: '#' :: '#' :: rest => some ([], rest)
  | c :: r =>
    match hashScan r with
    | none => none
    | some (b, a) => some (c :: b, a)
  | [] => none

/-- Fuel-driven worker for `splitHash` (the fuel makes the recursion
structural; one unit of fuel is spent per marker occurrence removed, so a
fuel of the string's length always suffices). -/
def splitHashF : ℕ → Str → List Str
  | 0, s => [s]
  | fuel + 1, s =>
    match hashScan s with
    | none => [s]
    | some (b, a) => b :: splitHashF fuel a

/-- Python `full_response.split("####")`: repeatedly cut the text at the
first remaining occurrence of the four-character marker, scanning left to
right. -/
def splitHash (s : Str) : List Str := splitHashF s.length s

/-- Python `str.lower()` (ASCII range). -/
def lowerC (c : Char) : Char :=
  if 'A' ≤ c && c ≤ 'Z' then Char.ofNat (c.toNat + 32) else c

/-- Python `str.lower()` mapped over a string. -/
def lowerS (s : Str) : Str := s.map lowerC

/-- Does `p` start with `n`? -/
def startsWith : Str → Str → Bool
  | [], _ => true
  | _ :: _, [] => false
  | a :: as, b :: bs => a = b && startsWith as bs

/-- Python `needle in hay` (substring containment). -/
def hasSub (hay needle : Str) : Bool :=
  startsWith needle hay ||
    match hay with
    | [] => false
    | _ :: t => hasSub t needle

/-- Python `problem.count("?")` (single-character count). -/
def countCh (c : Char) (s : Str) : ℕ := s.countP (fun d => d = c)

/-! ## Complexity estimator (`src/python/complexity.py`) -/

/-- The `domain_base_limits` table: default word limits per domain, with the
dictionary lookup `self.domain_base_limits.get(domain.lower(), 5)`. -/
def domainBaseLimit (domain : Str) : ℤ :=
  let d := lowerS domain
  if d = ofS "math" then 6
  else if d = ofS "logic" then 5
  else if d = ofS "common_sense" then 4
  else if d = ofS "physics" then 7
  else if d = ofS "chemistry" then 6
  else if d = ofS "biology" then 5
  else if d = ofS "code" then 8
  else if d = ofS "puzzle" then 5
  else if d = ofS "general" then 5
  else 5

/-- The `complexity_indicators` keyword table, with the lookup
`self.complexity_indicators.get(domain.lower(), [])`. -/
def complexityIndicators (domain : Str) : List Str :=
  let d := lowerS domain
  if d = ofS "math" then
    List.map ofS ["integral", "derivative", "equation", "proof", "theorem", "calculus",
      "matrix", "vector", "linear algebra", "probability", "statistics",
      "geometric series", "differential", "polynomial", "factorial"]
  else if d = ofS "logic" then
    List.map ofS ["if and only if", "necessary condition", "sufficient", "contradiction",
      "syllogism", "premise", "fallacy", "converse", "counterexample",
      "logical equivalence", "negation", "disjunction", "conjunction"]
  else if d = ofS "code" then
    List.map ofS ["recursion", "algorithm", "complexity", "optimization", "function",
      "class", "object", "inheritance", "polymorphism", "data structure",
      "binary tree", "hash table", "graph", "dynamic programming"]
  else if d = ofS "physics" then
    List.map ofS ["quantum", "relativity", "momentum", "force", "acceleration",
      "energy", "thermodynamics", "electric field", "magnetic field",
      "potential", "entropy", "wavelength", "frequency"]
  else if d = ofS "chemistry" then
    List.map ofS ["reaction", "molecule", "compound", "element", "equilibrium",
      "acid", "base", "oxidation", "reduction", "catalyst", "isomer"]
  else if d = ofS "biology" then
    List.map ofS ["gene", "protein", "enzyme", "cell", "tissue", "organ", "system",
      "metabolism", "photosynthesis", "respiration", "homeostasis"]
  else if d = ofS "puzzle" then
    List.map ofS ["constraint", "sequence", "pattern", "rules", "probability",
      "combination", "permutation", "optimal", "strategy"]
  else []

/-- Python `len(problem.split())`. -/
def wordCount (p : Str) : ℕ := (wtokens p).length

/-- The length factor `min(len(problem.split()) / 50, 2)`. -/
def lengthFactor (p : Str) : ℚ := min ((wordCount p : ℚ) / 50) 2

/-- The indicators whose lowercased text occurs in the lowercased problem
(the loop in `estimate_complexity` and the comprehension in
`analyze_problem` count the same set). -/
def foundIndicators (p d : Str) : List Str :=
  (complexityIndicators d).filter (fun ind => hasSub (lowerS p) (lowerS ind))

/-- Python `indicator_count`. -/
def indicatorCount (p d : Str) : ℕ := (foundIndicators p d).length

/-- The indicator factor `min(1 + indicator_count * 0.2, 1.8)`. -/
def indicatorFactor (p d : Str) : ℚ :=
  min (1 + (indicatorCount p d : ℚ) * (1 / 5)) (9 / 5)

/-- The question factor `1 + problem.count("?") * 0.2`. -/
def questionFactor (p : Str) : ℚ := 1 + (countCh '?' p : ℚ) * (1 / 5)

/-- Python `[s for s in problem.split(".") if s.strip()]`. -/
def sentenceList (p : Str) : List Str :=
  (splitCh '.' p).filter (fun s => !(pyStrip s).isEmpty)

/-- Python `len(problem.split()) / max(len(sentences), 1)`. -/
def wordsPerSentence (p : Str) : ℚ :=
  (wordCount p : ℚ) / (max (sentenceList p).length 1 : ℕ)

/-- The sentence-complexity factor `min(words_per_sentence / 15, 1.5)`. -/
def sentenceComplexityFactor (p : Str) : ℚ :=
  min (wordsPerSentence p / 15) (3 / 2)

/-- The domain-specific factor: 1.3 for "math" problems mentioning
prove/proof/theorem, 1.2 for "code" problems mentioning
implement/function/algorithm, else 1.0. -/
def domainFactor (p d : Str) : ℚ :=
  if lowerS d = ofS "math" &&
      (List.map ofS ["prove", "proof", "theorem"]).any (fun t => hasSub (lowerS p) t) then
    13 / 10
  else if lowerS d = ofS "code" &&
      (List.map ofS ["implement", "function", "algorithm"]).any (fun t => hasSub (lowerS p) t) then
    6 / 5
  else 1

/-- Python `max(length_factor, indicator_factor, question_factor,
sentence_complexity_factor)` — the four-factor maximum used by
`analyze_problem`'s `estimated_complexity`. -/
def maxFourFactor (p d : Str) : ℚ :=
  max (lengthFactor p)
    (max (indicatorFactor p d) (max (questionFactor p) (sentenceComplexityFactor p)))

/-- Python `max(length_factor, indicator_factor, question_factor,
sentence_complexity_factor, domain_factor)` in `estimate_complexity`. -/
def impactFactor (p d : Str) : ℚ :=
  max (lengthFactor p)
    (max (indicatorFactor p d)
      (max (questionFactor p) (max (sentenceComplexityFactor p) (domainFactor p d))))

/-- Python `round` on an exact rational value: round-half-to-even.  (The
Python sources compute these factors in binary floating point; on the values
relevant to the claims the exact-rational and floating-point results agree,
and the clamping bounds below are independent of the rounding mode.) -/
def ratFloor (q : ℚ) : ℤ := Int.fdiv q.num (q.den : ℤ)

def pyRound (q : ℚ) : ℤ :=
  let f := ratFloor q
  let r := q - (f : ℚ)
  if r < 1 / 2 then f
  else if 1 / 2 < r then f + 1
  else if f % 2 = 0 then f else f + 1

/-- `ComplexityEstimator.estimate_complexity`: the adjusted limit
`round(base_limit * impact_factor)` clamped by `max(3, min(·, 10))`. -/
def estimateComplexity (p d : Str) : ℤ :=
  max 3 (min (pyRound ((domainBaseLimit d : ℚ) * impactFactor p d)) 10)

/-- The dictionary returned by `ComplexityEstimator.analyze_problem`. -/
structure ProblemAnalysis where
  domain : Str
  base_limit : ℤ
  word_count : ℕ
  length_factor : ℚ
  indicator_count : ℕ
  found_indicators : List Str
  indicator_factor : ℚ
  question_count : ℕ
  question_factor : ℚ
  sentence_count : ℕ
  words_per_sentence : ℚ
  sentence_complexity_factor : ℚ
  estimated_complexity : ℤ
  deriving DecidableEq

/-- `ComplexityEstimator.analyze_problem`.  Note that its
`estimated_complexity` entry maximises over only four factors: the
domain-specific factor of `estimate_complexity` is absent. -/
def analyzeProblem (p d : Str) : ProblemAnalysis :=
  { domain := d
    base_limit := domainBaseLimit d
    word_count := wordCount p
    length_factor := lengthFactor p
    indicator_count := indicatorCount p d
    found_indicators := foundIndicators p d
    indicator_factor := indicatorFactor p d
    question_count := countCh '?' p
    question_factor := questionFactor p
    sentence_count := (sentenceList p).length
    words_per_sentence := wordsPerSentence p
    sentence_complexity_factor := sentenceComplexityFactor p
    estimated_complexity :=
      max 3 (min (pyRound ((domainBaseLimit d : ℚ) * maxFourFactor p d)) 10) }

/-! ## Format enforcer (`src/python/format.py`)

The step-marker regular expressions are embedded as deterministic greedy
matchers.  For each alternative (`\d+\.\s*`, `Step\s+\d+:`, `\s*-\s+`,
`\s*\*\s+`, `•\s+`) the greedy sub-matches (`\d+`, `\s+`, `\s*`) end exactly
at a character-class boundary, so regex backtracking can never turn a failed
greedy attempt into a success; the deterministic functions below therefore
compute exactly what Python's `re` does on these patterns. -/

/-- Digit test for the regex class `\d` (ASCII). -/
def isDigit (c : Char) : Bool := '0' ≤ c && c ≤ '9'

/-- Match `\d+\.\s*` at the start of the string. -/
def markerNumDot (s : Str) : Option Str :=
  let ds := s.takeWhile isDigit
  if ds.isEmpty then none
  else
    match s.drop ds.length with
    | '.' :: rest => some (ds ++ '.' :: rest.takeWhile isWs)
    | _ => none

/-- Match `Step\s+\d+:` at the start of the string. -/
def markerStepColon (s : Str) : Option Str :=
  if startsWith (ofS "Step") s then
    let r1 := s.drop 4
    let w := r1.takeWhile isWs
    if w.isEmpty then none
    else
      let r2 := r1.drop w.length
      let ds := r2.takeWhile isDigit
      if ds.isEmpty then none
      else
        match r2.drop ds.length with
        | ':' :: _ => some (ofS "Step" ++ w ++ ds ++ [':'])
        | _ => none
  else none

/-- Match `\s*m\s+` at the start of the string, for `m` the dash or star
marker character. -/
def markerSymWs (mark : Char) (s : Str) : Option Str :=
  let w1 := s.takeWhile isWs
  match s.drop w1.length with
  | c :: rest =>
    if c = mark then
      let w2 := rest.takeWhile isWs
      if w2.isEmpty then none else some (w1 ++ c :: w2)
    else none
  | [] => none

/-- Match `•\s+` at the start of the string. -/
def markerBullet (s : Str) : Option Str :=
  match s with
  | c :: rest =>
    if c = '•' then
      let w := rest.takeWhile isWs
      if w.isEmpty then none else some (c :: w)
    else none
  | [] => none

/-- The marker-stripping regex of `_enforce_step` / `analyze_adherence` /
`format_to_numbered_steps`:
`re.match(r'^(\d+\.\s*|Step\s+\d+:|\s*-\s+|\s*\*\s+|•\s+)', step)`,
alternatives tried left to right. -/
def markerMatch (s : Str) : Option Str :=
  match markerNumDot s with
  | some m => some m
  | none =>
    match markerStepColon s with
    | some m => some m
    | none =>
      match markerSymWs '-' s with
      | some m => some m
      | none =>
        match markerSymWs '*' s with
        | some m => some m
        | none => markerBullet s

/-- Match `\s*\d+\.` at the start of a line (the extra
`re.match(r'^\s*\d+\.', line)` test in `_split_into_steps`). -/
def wsNumDot (line : Str) : Bool :=
  let r := line.dropWhile isWs
  let ds := r.takeWhile isDigit
  !ds.isEmpty &&
    match r.drop ds.length with
    | '.' :: _ => true
    | _ => false

/-- Does a line open a new step in `_split_into_steps`'s walk?
This is `step_pattern.match(line) or re.match(r'^\s*\d+\.', line)`.
Lines produced by `split('\n')` contain no newline, so the `\n-\s+` and
`\n\*\s+` alternatives of `step_pattern` can never match at line start and
are omitted. -/
def isStepStartLine (line : Str) : Bool :=
  (markerNumDot line).isSome || (markerStepColon line).isSome ||
    (markerBullet line).isSome || (markerSymWs '-' line).isSome ||
    (markerSymWs '*' line).isSome || wsNumDot line

/-- Is there an occurrence of `\d+\.` anywhere (equivalently: a digit
immediately followed by a dot)? -/
def digitDotSearch : Str → Bool
  | c1 :: c2 :: r => (isDigit c1 && c2 = '.') || digitDotSearch (c2 :: r)
  | _ => false

/-- Is there an occurrence of `Step\s+\d+:` anywhere? -/
def stepColonSearch : Str → Bool
  | [] => false
  | c :: r => (markerStepColon (c :: r)).isSome || stepColonSearch r

/-- Is there an occurrence of `\n` + `mark` + `\s` anywhere (the `\n-\s+` and
`\n\*\s+` alternatives)? -/
def nlMarkSearch (mark : Char) : Str → Bool
  | '\n' :: m :: c :: r => (m = mark && isWs c) || nlMarkSearch mark (m :: c :: r)
  | _ :: r => nlMarkSearch mark r
  | [] => false

/-- Is there an occurrence of `•\s` anywhere (the `•\s+` alternative)? -/
def bulletSearch : Str → Bool
  | '•' :: c :: r => isWs c || bulletSearch (c :: r)
  | _ :: r => bulletSearch r
  | [] => false

/-- Does `\s*mark\s+` match starting at this position (its `\s*` and `\s+`
may cross newlines)? -/
def wsSymWsHere (mark : Char) (s : Str) : Bool :=
  match s.dropWhile isWs with
  | c :: c2 :: _ => c = mark && isWs c2
  | _ => false

/-- Scan for a MULTILINE `^\s*mark\s+` match: try `wsSymWsHere` at the start
of the text and after every newline. -/
def lineStartSymScan (mark : Char) : Str → Bool → Bool
  | s, atLineStart =>
    (atLineStart && wsSymWsHere mark s) ||
      match s with
      | [] => false
      | c :: r => lineStartSymScan mark r (c = '\n')

/-- `self.step_pattern.search(reasoning)`: does the step-marker pattern occur
anywhere in the text (`re.MULTILINE`)? -/
def hasStepMarker (s : Str) : Bool :=
  digitDotSearch s || stepColonSearch s || nlMarkSearch '-' s || nlMarkSearch '*' s ||
    bulletSearch s || lineStartSymScan '-' s true || lineStartSymScan '*' s true

/-- The line walk of `_split_into_steps`: each step-start line opens a new
accumulator, other lines are newline-appended to the current one (an empty
current accumulator is Python-falsy and is replaced instead). -/
def splitStepsWalk : List Str → List Str → Str → List Str
  | [], parts, current => if current.isEmpty then parts else parts ++ [current]
  | line :: rest, parts, current =>
    if isStepStartLine line then
      splitStepsWalk rest (if current.isEmpty then parts else parts ++ [current]) line
    else
      if current.isEmpty then splitStepsWalk rest parts line
      else splitStepsWalk rest parts (current ++ '\n' :: line)

/-- `FormatEnforcer._split_into_steps`. -/
def splitIntoSteps (reasoning : Str) : List Str :=
  if hasStepMarker reasoning then
    let parts := splitStepsWalk (splitNL reasoning) [] []
    if parts.isEmpty then [reasoning] else parts
  else
    ((splitNL reasoning).map pyStrip).filter (fun l => !l.isEmpty)

/-- `FormatEnforcer._enforce_step`: pass steps whose raw whitespace-token
count is within the limit through unchanged, otherwise strip the leading
marker, truncate the content to the first `maxWords` words and reassemble. -/
def enforceStep (maxWords : ℕ) (step : Str) : Str :=
  if (wtokens step).length ≤ maxWords then step
  else
    let marker := (markerMatch step).getD []
    let content := if marker.isEmpty then step else pyStrip (step.drop marker.length)
    marker ++ joinSp ((wtokens content).take maxWords)

/-- `FormatEnforcer.enforce_word_limit`. -/
def enforceWordLimit (reasoning : Str) (maxWords : ℕ) : Str :=
  joinNL ((splitIntoSteps reasoning).map (enforceStep maxWords))

/-- The per-step word count of `analyze_adherence`: words of the step after
stripping the leading marker (if any). -/
def stepContentCount (step : Str) : ℕ :=
  let marker := (markerMatch step).getD []
  let content := if marker.isEmpty then step else pyStrip (step.drop marker.length)
  (wtokens content).length

/-- The dictionary returned by `FormatEnforcer.analyze_adherence`. -/
structure AdherenceReport where
  total_steps : ℕ
  steps_within_limit : ℕ
  average_words_per_step : ℚ
  max_words_in_any_step : ℕ
  adherence_rate : ℚ
  step_counts : List ℕ
  deriving DecidableEq

/-- `FormatEnforcer.analyze_adherence`. -/
def analyzeAdherence (reasoning : Str) (maxWords : ℕ) : AdherenceReport :=
  let steps := splitIntoSteps reasoning
  let counts := steps.map stepContentCount
  { total_steps := steps.length
    steps_within_limit := (counts.filter (fun c => c ≤ maxWords)).length
    average_words_per_step :=
      if steps.isEmpty then 0 else (counts.sum : ℚ) / (steps.length : ℚ)
    max_words_in_any_step := counts.foldr max 0
    adherence_rate :=
      if steps.isEmpty then 1
      else ((counts.filter (fun c => c ≤ maxWords)).length : ℚ) / (steps.length : ℚ)
    step_counts := counts }

/-! ## Approach selector (`reasoning.py`) -/

/-- One per-domain entry of `default_preferences`. -/
structure DomainPrefs where
  complexity_threshold : ℤ
  accuracy_threshold : ℚ
  deriving DecidableEq

/-- The seeded `default_preferences` table with the lookup
`self.default_preferences.get(domain.lower(), self.default_preferences["default"])`. -/
def selectorPrefs (domain : Str) : DomainPrefs :=
  let d := lowerS domain
  if d = ofS "math" then ⟨7, 17 / 20⟩
  else if d = ofS "code" then ⟨8, 9 / 10⟩
  else if d = ofS "physics" then ⟨7, 17 / 20⟩
  else if d = ofS "chemistry" then ⟨7, 17 / 20⟩
  else if d = ofS "biology" then ⟨6, 17 / 20⟩
  else if d = ofS "logic" then ⟨6, 9 / 10⟩
  else if d = ofS "puzzle" then ⟨7, 17 / 20⟩
  else ⟨6, 4 / 5⟩

/-- One row of `AnalyticsService.get_performance_by_domain` (the
historical-performance collaborator of the spec; `accuracy` is nullable). -/
structure PerfEntry where
  domain : Str
  approach : Str
  avg_tokens : ℚ
  avg_time_ms : ℚ
  accuracy : Option ℚ
  count : ℕ
  deriving DecidableEq

/-- The justification returned with a strategy decision.  The Python code
formats these as f-strings; the embedding keeps the justification's identity
and numeric payload and abstracts the decimal rendering. -/
inductive ApproachReason where
  | complexityExceeds (score threshold : ℤ)
  | accuracyBelow (accuracy threshold : ℚ)
  | defaultTerse
  | manuallySpecified
  deriving DecidableEq

/-- `ReasoningSelector.select_approach`, with the analytics collaborator's
reply passed in as `perf` and the optional pre-computed complexity score as
`complexityScore` (when absent the selector invokes the estimator itself). -/
def selectApproach (perf : List PerfEntry) (problem domain : Str)
    (complexityScore : Option ℤ) : Str × ApproachReason :=
  let prefs := selectorPrefs domain
  let score := complexityScore.getD (estimateComplexity problem domain)
  if prefs.complexity_threshold < score then
    (ofS "CoT", .complexityExceeds score prefs.complexity_threshold)
  else
    let codAccuracy := (perf.find? (fun p => p.approach = ofS "CoD")).bind (·.accuracy)
    match codAccuracy with
    | some a =>
      if a < prefs.accuracy_threshold then (ofS "CoT", .accuracyBelow a prefs.accuracy_threshold)
      else (ofS "CoD", .defaultTerse)
    | none => (ofS "CoD", .defaultTerse)

/-! ## Orchestrator (`client.py`) -/

/-- Token usage reported by the generative-text collaborator. -/
structure LLMUsage where
  input_tokens : ℕ
  output_tokens : ℕ
  deriving DecidableEq

/-- A reply of the generative-text collaborator
(`UnifiedLLMClient.chat` returns `{content, usage}`). -/
structure LLMResponse where
  content : Str
  usage : LLMUsage
  deriving DecidableEq

/-- The five `default_settings` of `ChainOfDraftClient` plus the optional
caller-forced approach read from the merged settings. -/
structure ClientSettings where
  max_words_per_step : ℕ
  enforce_format : Bool
  adaptive_word_limit : Bool
  track_analytics : Bool
  max_tokens : ℕ
  approach : Option Str
  deriving DecidableEq

/-- The stored defaults of `ChainOfDraftClient.__init__`. -/
def defaultSettings : ClientSettings :=
  { max_words_per_step := 8
    enforce_format := true
    adaptive_word_limit := true
    track_analytics := true
    max_tokens := 200000
    approach := none }

/-- Caller-supplied keyword overrides for one `solve_with_reasoning` call. -/
structure SolveOverrides where
  max_words_per_step : Option ℕ := none
  enforce_format : Option Bool := none
  adaptive_word_limit : Option Bool := none
  track_analytics : Option Bool := none
  max_tokens : Option ℕ := none
  approach : Option Str := none
  deriving DecidableEq

/-- `local_settings = {**self.settings, **kwargs}`. -/
def mergeSettings (s : ClientSettings) (kw : SolveOverrides) : ClientSettings :=
  { max_words_per_step := kw.max_words_per_step.getD s.max_words_per_step
    enforce_format := kw.enforce_format.getD s.enforce_format
    adaptive_word_limit := kw.adaptive_word_limit.getD s.adaptive_word_limit
    track_analytics := kw.track_analytics.getD s.track_analytics
    max_tokens := kw.max_tokens.getD s.max_tokens
    approach := match kw.approach with
      | some a => some a
      | none => s.approach }

/-- The word-limit resolution of `solve_with_reasoning`:
`complexity if local_settings["adaptive_word_limit"] and approach == "CoD"
else local_settings["max_words_per_step"]`, over the merged settings. -/
def resolveWordLimit (ls : ClientSettings) (approach : Str) (complexity : ℤ) : ℕ :=
  if ls.adaptive_word_limit && approach = ofS "CoD" then complexity.toNat
  else ls.max_words_per_step

/-- The sentinel answer used when the response has no `####` marker. -/
def noAnswerSentinel : Str := ofS "No clear answer found"

/-- The reasoning/answer extraction of `solve_with_reasoning`:
`parts = full_response.split("####")`, `reasoning = parts[0].strip()`,
`answer = parts[1].strip() if len(parts) > 1 else "No clear answer found"`. -/
def extractReasoningAnswer (full : Str) : Str × Str :=
  let parts := splitHash full
  (pyStrip (parts.headD []),
    if 1 < parts.length then pyStrip (parts.getD 1 []) else noAnswerSentinel)

/-- The fields the orchestrator hands to
`AnalyticsService.record_inference` (wall-clock execution time, which is not
a function of the inputs, is omitted from the embedding). -/
structure InferenceEventModel where
  problem : Str
  domain : Str
  approach : Str
  word_limit : ℕ
  tokens_used : ℕ
  reasoning : Str
  answer : Str
  complexity : ℤ
  approach_reason : ApproachReason
  adherence : Option AdherenceReport
  deriving DecidableEq

/-- The dictionary returned by `solve_with_reasoning`. -/
structure SolveResult where
  reasoning_steps : Str
  final_answer : Str
  token_count : ℕ
  approach : Str
  complexity : ℤ
  word_limit : ℕ
  deriving DecidableEq

/-- `ChainOfDraftClient.solve_with_reasoning`.  The generative-text
collaborator's reply is passed in as `response`, the analytics
collaborator's performance rows as `perf`; the returned pair is the result
dictionary together with the analytics event recorded for the call (if
analytics tracking is on).  The word limit is a Python int used for list
slicing; scores are clamped to at least 3, so `Int.toNat` is exact here. -/
def solveWithReasoning (settings : ClientSettings) (kw : SolveOverrides)
    (perf : List PerfEntry) (response : LLMResponse) (problem domain : Str) :
    SolveResult × Option InferenceEventModel :=
  let ls := mergeSettings settings kw
  let complexity := estimateComplexity problem domain
  let sel :=
    match ls.approach with
    | some a => (a, ApproachReason.manuallySpecified)
    | none => selectApproach perf problem domain (some complexity)
  let approach := sel.1
  let wordLimit : ℕ := resolveWordLimit ls approach complexity
  let full := response.content
  let ra := extractReasoningAnswer full
  let enf := ls.enforce_format && approach = ofS "CoD"
  let reasoning := if enf then enforceWordLimit ra.1 wordLimit else ra.1
  let adherence := if enf then some (analyzeAdherence reasoning wordLimit) else none
  let event : Option InferenceEventModel :=
    if ls.track_analytics then
      some { problem := problem, domain := domain, approach := approach,
             word_limit := wordLimit, tokens_used := (wtokens full).length,
             reasoning := reasoning, answer := ra.2, complexity := complexity,
             approach_reason := sel.2, adherence := adherence }
    else none
  ({ reasoning_steps := reasoning, final_answer := ra.2,
     token_count := (wtokens full).length, approach := approach,
     complexity := complexity, word_limit := wordLimit }, event)

/-- The externally observable side effects of one public-interface call:
a call to the generative-text collaborator and/or a recorded analytics
event. -/
inductive Effect where
  | llmCall
  | analyticsRecord (event : InferenceEventModel)
  deriving DecidableEq

/-- The effects performed by one completed `solve_with_reasoning` call: the
generative-text call always happens, the analytics write only when tracking
is enabled. -/
def solveEffects (settings : ClientSettings) (kw : SolveOverrides)
    (perf : List PerfEntry) (response : LLMResponse) (problem domain : Str) :
    List Effect :=
  Effect.llmCall ::
    (match (solveWithReasoning settings kw perf response problem domain).2 with
     | some e => [Effect.analyticsRecord e]
     | none => [])

/-- `ChainOfDraftClient.completions`: `prompt=None` is the default, and
`if not prompt` rejects both a missing and an empty prompt before any work
is done. -/
def completionsCall (settings : ClientSettings) (kw : SolveOverrides)
    (perf : List PerfEntry) (response : LLMResponse) (prompt : Option Str)
    (domain : Str) : Except Str SolveResult × List Effect :=
  match prompt with
  | none => (Except.error (ofS "Prompt is required"), [])
  | some p =>
    if p.isEmpty then (Except.error (ofS "Prompt is required"), [])
    else
      ((Except.ok (solveWithReasoning settings kw perf response p domain).1),
        solveEffects settings kw perf response p domain)

/-- One chat turn. -/
structure ChatMsg where
  role : Str
  content : Str
  deriving DecidableEq

/-- The problem extraction of `chat` / `messages`:
`next((m["content"] for m in reversed(messages) if m["role"] == "user"), "")`. -/
def lastUserContent (messages : List ChatMsg) : Str :=
  match messages.reverse.find? (fun m => m.role = ofS "user") with
  | some m => m.content
  | none => []

/-- `ChainOfDraftClient.chat`: empty message list, or no user message (or a
last user message with empty content), is rejected before any work. -/
def chatCall (settings : ClientSettings) (kw : SolveOverrides)
    (perf : List PerfEntry) (response : LLMResponse) (messages : List ChatMsg)
    (domain : Str) : Except Str SolveResult × List Effect :=
  if messages.isEmpty then (Except.error (ofS "Messages are required"), [])
  else
    let p := lastUserContent messages
    if p.isEmpty then
      (Except.error (ofS "No user message found in the provided messages"), [])
    else
      ((Except.ok (solveWithReasoning settings kw perf response p domain).1),
        solveEffects settings kw perf response p domain)

/-- `ChainOfDraftClient.messages` (the Anthropic-style interface): the same
guards as `chat`. -/
def messagesCall (settings : ClientSettings) (kw : SolveOverrides)
    (perf : List PerfEntry) (response : LLMResponse) (messages : List ChatMsg)
    (domain : Str) : Except Str SolveResult × List Effect :=
  if messages.isEmpty then (Except.error (ofS "Messages are required"), [])
  else
    let p := lastUserContent messages
    if p.isEmpty then
      (Except.error (ofS "No user message found in the provided messages"), [])
    else
      ((Except.ok (solveWithReasoning settings kw perf response p domain).1),
        solveEffects settings kw perf response p domain)

/-! ## General lemmas about the string model -/

theorem length_dropWhile_le (p : Char → Bool) (l : Str) :
    (l.dropWhile p).length ≤ l.length := by
  induction l with
  | nil => simp [List.dropWhile]
  | cons a t ih =>
    rw [List.dropWhile_cons]
    split
    · exact Nat.le_trans ih (Nat.le_succ _)
    · exact Nat.le_refl _

theorem wtokensF_nil (fuel : ℕ) : wtokensF fuel [] = [] := by
  cases fuel <;> rfl

theorem wtokensF_fuel_eq (f1 : ℕ) : ∀ (f2 : ℕ) (s : Str), s.length ≤ f1 → s.length ≤ f2 →
    wtokensF f1 s = wtokensF f2 s := by
  induction f1 with
  | zero =>
    intro f2 s hs1 _
    cases s with
    | nil => rw [wtokensF_nil, wtokensF_nil]
    | cons c cs => simp at hs1
  | succ n ih =>
    intro f2 s hs1 hs2
    cases s with
    | nil => rw [wtokensF_nil, wtokensF_nil]
    | cons c cs =>
      cases f2 with
      | zero => simp at hs2
      | succ m =>
        simp only [List.length_cons] at hs1 hs2
        show (if isWs c then wtokensF n cs else (c :: cs.takeWhile (fun d => !isWs d)) ::
            wtokensF n (cs.dropWhile (fun d => !isWs d))) =
          (if isWs c then wtokensF m cs else (c :: cs.takeWhile (fun d => !isWs d)) ::
            wtokensF m (cs.dropWhile (fun d => !isWs d)))
        by_cases h : isWs c = true
        · rw [if_pos h, if_pos h, ih m cs (by omega) (by omega)]
        · rw [if_neg h, if_neg h,
            ih m _ (le_trans (length_dropWhile_le _ cs) (by omega))
              (le_trans (length_dropWhile_le _ cs) (by omega))]

theorem wtokensF_fuel (fuel : ℕ) (s : Str) (h : s.length ≤ fuel) :
    wtokensF fuel s = wtokens s :=
  wtokensF_fuel_eq fuel s.length s h (le_refl _)

theorem tokens_ws_cons (c : Char) (s : Str) (h : isWs c = true) :
    wtokens (c :: s) = wtokens s := by
  show (if isWs c then wtokensF s.length s else _) = wtokens s
  rw [if_pos h]
  rfl

theorem tokens_nonws_cons (c : Char) (s : Str) (h : ¬ isWs c = true) :
    wtokens (c :: s) =
      (c :: s.takeWhile (fun d => !isWs d)) :: wtokens (s.dropWhile (fun d => !isWs d)) := by
  show (if isWs c then _ else (c :: s.takeWhile (fun d => !isWs d)) ::
    wtokensF s.length (s.dropWhile (fun d => !isWs d))) = _
  rw [if_neg h, wtokensF_fuel s.length _ (length_dropWhile_le _ s)]

/-- Structural induction along the recursion pattern of `wtokens`. -/
theorem wtokens_ind (P : Str → Prop) (h1 : P [])
    (h2 : ∀ c cs, isWs c = true → P cs → P (c :: cs))
    (h3 : ∀ c cs, ¬ isWs c = true → P (cs.dropWhile (fun d => !isWs d)) → P (c :: cs)) :
    ∀ s, P s := by
  have key : ∀ n : ℕ, ∀ s : Str, s.length ≤ n → P s := by
    intro n
    induction n with
    | zero =>
      intro s hs
      cases s with
      | nil => exact h1
      | cons c cs => simp at hs
    | succ n ih =>
      intro s hs
      cases s with
      | nil => exact h1
      | cons c cs =>
        simp only [List.length_cons] at hs
        by_cases hc : isWs c = true
        · exact h2 c cs hc (ih cs (by omega))
        · exact h3 c cs hc (ih _ (le_trans (length_dropWhile_le _ cs) (by omega)))
  exact fun s => key s.length s (le_refl _)

theorem tokens_cons_ge (c : Char) (s : Str) :
    (wtokens s).length ≤ (wtokens (c :: s)).length := by
  by_cases h : isWs c = true
  · rw [tokens_ws_cons c s h]
  · rw [tokens_nonws_cons c s h]
    cases s with
    | nil => simp [wtokens, wtokensF]
    | cons d ds =>
      by_cases hd : isWs d = true
      · rw [List.dropWhile_cons, if_neg (by simp [hd])]
        simp only [List.length_cons]
        exact Nat.le_succ _
      · rw [List.dropWhile_cons, if_pos (by simp [hd]), tokens_nonws_cons d ds hd]
        simp only [List.length_cons]
        exact le_refl _

theorem dropWhile_append_ne_nil {p : Char → Bool} {l : Str} (l₂ : Str)
    (h : l.dropWhile p ≠ []) :
    (l ++ l₂).dropWhile p = l.dropWhile p ++ l₂ := by
  induction l with
  | nil => simp [List.dropWhile] at h
  | cons a t ih =>
    rw [List.cons_append, List.dropWhile_cons, List.dropWhile_cons]
    by_cases hp : p a = true
    · rw [if_pos hp, if_pos hp]
      rw [List.dropWhile_cons, if_pos hp] at h
      exact ih h
    · rw [if_neg hp, if_neg hp, List.cons_append]

theorem tokens_append_right (y z : Str) :
    (wtokens y).length ≤ (wtokens (y ++ z)).length := by
  induction y using wtokens_ind with
  | h1 => simp [wtokens, wtokensF]
  | h2 c cs h ih =>
    rw [List.cons_append, tokens_ws_cons c cs h, tokens_ws_cons c _ h]
    exact ih
  | h3 c cs h ih =>
    rw [List.cons_append, tokens_nonws_cons c cs h, tokens_nonws_cons c _ h]
    simp only [List.length_cons]
    rcases h2 : cs.dropWhile (fun d => !isWs d) with _ | ⟨e, es⟩
    · simp [wtokens, wtokensF]
    · rw [dropWhile_append_ne_nil z (by rw [h2]; exact List.cons_ne_nil e es), h2]
      rw [h2] at ih
      exact Nat.add_le_add_right ih 1

theorem tokens_append_left (x y : Str) :
    (wtokens y).length ≤ (wtokens (x ++ y)).length := by
  induction x with
  | nil => simp
  | cons c xs ih => exact le_trans ih (tokens_cons_ge c (xs ++ y))

theorem tokens_take_le (n : ℕ) (s : Str) :
    (wtokens (s.take n)).length ≤ (wtokens s).length := by
  conv_rhs => rw [← List.take_append_drop n s]
  exact tokens_append_right _ _

theorem tokens_drop_le (n : ℕ) (s : Str) :
    (wtokens (s.drop n)).length ≤ (wtokens s).length := by
  conv_rhs => rw [← List.take_append_drop n s]
  exact tokens_append_left _ _

theorem stripEnd_eq_take (s : Str) : ∃ n, stripEnd s = s.take n := by
  induction s with
  | nil => exact ⟨0, rfl⟩
  | cons c cs ih =>
    rcases ih with ⟨n, hn⟩
    by_cases h : isWs c = true ∧ (stripEnd cs).isEmpty = true
    · refine ⟨0, ?_⟩
      show (if isWs c = true ∧ (stripEnd cs).isEmpty = true then [] else c :: stripEnd cs) = _
      rw [if_pos h]
      rfl
    · refine ⟨n + 1, ?_⟩
      show (if isWs c = true ∧ (stripEnd cs).isEmpty = true then [] else c :: stripEnd cs) = _
      rw [if_neg h, hn, List.take_succ_cons]

theorem dropWhile_eq_drop (p : Char → Bool) (s : Str) : ∃ n, s.dropWhile p = s.drop n := by
  induction s with
  | nil => exact ⟨0, rfl⟩
  | cons c cs ih =>
    by_cases h : p c = true
    · rcases ih with ⟨n, hn⟩
      exact ⟨n + 1, by rw [List.dropWhile_cons, if_pos h, List.drop_succ_cons, hn]⟩
    · exact ⟨0, by rw [List.dropWhile_cons, if_neg h, List.drop_zero]⟩

theorem tokens_stripEnd_le (s : Str) :
    (wtokens (stripEnd s)).length ≤ (wtokens s).length := by
  rcases stripEnd_eq_take s with ⟨n, hn⟩
  rw [hn]
  exact tokens_take_le n s

theorem tokens_pyStrip_le (s : Str) :
    (wtokens (pyStrip s)).length ≤ (wtokens s).length := by
  rcases dropWhile_eq_drop isWs s with ⟨n, hn⟩
  calc (wtokens (pyStrip s)).length ≤ (wtokens (s.dropWhile isWs)).length :=
        tokens_stripEnd_le _
    _ ≤ (wtokens s).length := by rw [hn]; exact tokens_drop_le n s

/-- The per-step count of `analyze_adherence` never exceeds the raw
whitespace-token count of the step. -/
theorem stepContentCount_le_tokens (s : Str) :
    stepContentCount s ≤ (wtokens s).length := by
  unfold stepContentCount
  rcases markerMatch s with _ | m
  · simp
  · simp only [Option.getD_some]
    by_cases h : m.isEmpty
    · simp [h]
    · simp only [h, Bool.false_eq_true, if_neg, not_false_iff, if_false]
      calc (wtokens (pyStrip (s.drop m.length))).length
          ≤ (wtokens (s.drop m.length)).length := tokens_pyStrip_le _
        _ ≤ (wtokens s).length := tokens_drop_le _ _

/-! ## Claim C1 — complexity scores are clamped and deterministic -/

/-- C1: for every problem text and domain, `estimate_complexity` returns an
integer in the closed range [3, 10], and identical inputs give identical
results (the embedding is a pure function; the second conjunct states the
determinism explicitly). -/
theorem claim_C1 (p d : Str) :
    (3 ≤ estimateComplexity p d ∧ estimateComplexity p d ≤ 10) ∧
      (∀ p' d', p' = p → d' = d → estimateComplexity p' d' = estimateComplexity p d) := by
  refine ⟨⟨le_max_left _ _, max_le (by norm_num) (min_le_right _ _)⟩, ?_⟩
  intro p' d' hp hd
  rw [hp, hd]

/-- Witness for C1 at a concrete input. -/
theorem claim_C1_witness :
    (3 ≤ estimateComplexity (ofS "hi") (ofS "general") ∧
      estimateComplexity (ofS "hi") (ofS "general") ≤ 10) ∧
      estimateComplexity (ofS "hi") (ofS "general") =
        estimateComplexity (ofS "hi") (ofS "general") :=
  ⟨(claim_C1 (ofS "hi") (ofS "general")).1,
    (claim_C1 (ofS "hi") (ofS "general")).2 _ _ rfl rfl⟩

/-! ## Claim C6 — sizes of the impact factors -/

/-- C6 fails as stated: the length factor is `min(word_count / 50, 2)`,
which is far below 1.0 for a short problem such as "hi" (one word gives
1/50). -/
theorem claim_C6_cex : lengthFactor (ofS "hi") < 1 := by
  show min ((wordCount (ofS "hi") : ℚ) / 50) 2 < 1
  have h : wordCount (ofS "hi") = 1 := by decide
  rw [h]
  norm_num

/-- C6 amended: the indicator, question and domain-specific factors are
always at least 1.0, and so is the overall (maximum) impact factor; the
length factor and the sentence-complexity factor may fall below 1.0. -/
theorem claim_C6 (p d : Str) :
    1 ≤ indicatorFactor p d ∧ 1 ≤ questionFactor p ∧ 1 ≤ domainFactor p d ∧
      1 ≤ impactFactor p d := by
  have hq : 1 ≤ questionFactor p := by
    unfold questionFactor
    have : 0 ≤ (countCh '?' p : ℚ) * (1 / 5) := by positivity
    linarith
  refine ⟨?_, hq, ?_, ?_⟩
  · unfold indicatorFactor
    refine le_min ?_ (by norm_num)
    have : 0 ≤ (indicatorCount p d : ℚ) * (1 / 5) := by positivity
    linarith
  · unfold domainFactor
    split
    · norm_num
    · split
      · norm_num
      · exact le_refl 1
  · calc (1 : ℚ) ≤ questionFactor p := hq
      _ ≤ impactFactor p d := by
        unfold impactFactor
        exact le_trans (le_max_left _ _) (le_trans (le_max_right _ _) (le_max_right _ _))

/-! ## Claim C7 — the diagnostic breakdown versus the estimator -/

/-- C7 fails as stated: `analyze_problem` omits the domain-specific factor
from its `estimated_complexity` (and from the breakdown), so on the math
problem "prove theorem" the breakdown reports 7 while `estimate_complexity`
returns 8. -/
theorem claim_C7_cex :
    (analyzeProblem (ofS "prove theorem") (ofS "math")).estimated_complexity = 7 ∧
      estimateComplexity (ofS "prove theorem") (ofS "math") = 8 ∧ (7 : ℤ) ≠ 8 := by
  refine ⟨by decide, by decide, by decide⟩

/-- The five-factor maximum of `estimate_complexity` splits into the
four-factor maximum of `analyze_problem` and the domain-specific factor. -/
theorem impactFactor_eq_max (p d : Str) :
    impactFactor p d = max (maxFourFactor p d) (domainFactor p d) := by
  unfold impactFactor maxFourFactor
  simp only [max_assoc]

/-- C7 amended: the breakdown's factor fields agree with the estimator's
intermediate factors, but the breakdown has no domain-specific factor, and
its `estimated_complexity` agrees with `estimate_complexity` whenever the
domain-specific factor does not exceed the four-factor maximum.  (The
condition is sufficient, not necessary: rounding can make the two agree
even under strict domination, see
`analyze_estimate_agree_under_domination`.) -/
theorem claim_C7 (p d : Str) :
    (analyzeProblem p d).length_factor = lengthFactor p ∧
      (analyzeProblem p d).indicator_factor = indicatorFactor p d ∧
      (analyzeProblem p d).question_factor = questionFactor p ∧
      (analyzeProblem p d).sentence_complexity_factor = sentenceComplexityFactor p ∧
      (analyzeProblem p d).found_indicators = foundIndicators p d ∧
      (domainFactor p d ≤ maxFourFactor p d →
        (analyzeProblem p d).estimated_complexity = estimateComplexity p d) := by
  refine ⟨rfl, rfl, rfl, rfl, rfl, fun h => ?_⟩
  show max 3 (min (pyRound ((domainBaseLimit d : ℚ) * maxFourFactor p d)) 10) =
    max 3 (min (pyRound ((domainBaseLimit d : ℚ) * impactFactor p d)) 10)
  rw [impactFactor_eq_max, max_eq_left h]

/-- Witness for C7 at a concrete input where the domain factor does not
dominate. -/
theorem claim_C7_witness :
    (analyzeProblem (ofS "hi") (ofS "general")).estimated_complexity =
      estimateComplexity (ofS "hi") (ofS "general") :=
  (claim_C7 (ofS "hi") (ofS "general")).2.2.2.2.2 (by decide)

set_option maxRecDepth 4000 in
/-- Rounding can make the diagnostic and the estimator agree even when the
domain-specific factor strictly dominates the other four: on this 63-word
math problem containing "prove" (no indicator keywords, no question mark,
four sentences) the four-factor maximum is 63/50 and the domain factor is
13/10, yet `round(6 * 1.26) = round(6 * 1.3) = 8`, so both complexities are
8.  Hence domination is not necessary for disagreement-freedom and the
agreement condition of the amended C7 is one-directional. -/
theorem analyze_estimate_agree_under_domination :
    maxFourFactor (ofS "prove x x x x x x x x x x x x x x x. x x x x x x x x x x x x x x x x. x x x x x x x x x x x x x x x x. x x x x x x x x x x x x x x x")
        (ofS "math") <
      domainFactor (ofS "prove x x x x x x x x x x x x x x x. x x x x x x x x x x x x x x x x. x x x x x x x x x x x x x x x x. x x x x x x x x x x x x x x x")
        (ofS "math") ∧
      (analyzeProblem (ofS "prove x x x x x x x x x x x x x x x. x x x x x x x x x x x x x x x x. x x x x x x x x x x x x x x x x. x x x x x x x x x x x x x x x")
        (ofS "math")).estimated_complexity = 8 ∧
      estimateComplexity (ofS "prove x x x x x x x x x x x x x x x. x x x x x x x x x x x x x x x x. x x x x x x x x x x x x x x x x. x x x x x x x x x x x x x x x")
        (ofS "math") = 8 := by
  refine ⟨by decide, by decide, by decide⟩

/-! ## Lemmas on the `####` split -/

theorem hashScan_cons_eq (c : Char) (r : Str)
    (hne : ∀ rest, c = '#' → r = '#' :: '#' :: '#' :: rest → False) :
    hashScan (c :: r) = match hashScan r with
      | none => none
      | some (b, a) => some (c :: b, a) := by
  rw [hashScan.eq_def]
  split
  · rename_i rest heq
    injection heq with h1 h2
    exact (hne rest h1 h2).elim
  · rename_i c2 r2 hx heq
    injection heq with h1 h2
    subst h1; subst h2
    rfl
  · rename_i heq
    exact absurd heq (List.cons_ne_nil c r)

theorem hashScan_shrinks (s : Str) : ∀ b a, hashScan s = some (b, a) → a.length < s.length := by
  induction s using hashScan.induct with
  | case1 rest =>
    intro b a h
    rw [show hashScan ('#' :: '#' :: '#' :: '#' :: rest) = some ([], rest) from rfl] at h
    injection h with h1
    injection h1 with h2 h3
    rw [← h3]
    simp only [List.length_cons]
    omega
  | case2 c r hne hsc ih =>
    intro b a h
    rw [hashScan_cons_eq c r (fun rest h1 h2 => hne rest h1 h2), hsc] at h
    exact absurd h (by simp)
  | case3 c r hne b' a' hsc ih =>
    intro b a h
    rw [hashScan_cons_eq c r (fun rest h1 h2 => hne rest h1 h2), hsc] at h
    injection h with h1
    injection h1 with h2 h3
    rw [← h3]
    simp only [List.length_cons]
    exact Nat.lt_succ_of_lt (ih b' a' hsc)
  | case4 =>
    intro b a h
    exact absurd h (by rw [show hashScan [] = none from rfl]; simp)

theorem splitHashF_fuel_eq (f1 : ℕ) : ∀ (f2 : ℕ) (s : Str), s.length ≤ f1 → s.length ≤ f2 →
    splitHashF f1 s = splitHashF f2 s := by
  induction f1 with
  | zero =>
    intro f2 s hs1 _
    have hs : s = [] := List.length_eq_zero.mp (Nat.le_zero.mp hs1)
    subst hs
    cases f2 with
    | zero => rfl
    | succ m => rfl
  | succ n ih =>
    intro f2 s hs1 hs2
    cases hsc : hashScan s with
    | none =>
      show (match hashScan s with
        | none => [s]
        | some (b, a) => b :: splitHashF n a) = _
      rw [hsc]
      cases f2 with
      | zero => rfl
      | succ m =>
        show [s] = (match hashScan s with
          | none => [s]
          | some (b, a) => b :: splitHashF m a)
        rw [hsc]
    | some ba =>
      rcases ba with ⟨b, a⟩
      have hlt := hashScan_shrinks s b a hsc
      cases f2 with
      | zero =>
        have : s = [] := List.length_eq_zero.mp (Nat.le_zero.mp hs2)
        subst this
        rw [show hashScan ([] : Str) = none from rfl] at hsc
        exact absurd hsc (by simp)
      | succ m =>
        show (match hashScan s with
          | none => [s]
          | some (b, a) => b :: splitHashF n a) = (match hashScan s with
          | none => [s]
          | some (b, a) => b :: splitHashF m a)
        rw [hsc]
        show b :: splitHashF n a = b :: splitHashF m a
        rw [ih m a (by omega) (by omega)]

theorem splitHash_none (s : Str) (h : hashScan s = none) : splitHash s = [s] := by
  show splitHashF s.length s = [s]
  cases hl : s.length with
  | zero => rfl
  | succ n =>
    show (match hashScan s with
      | none => [s]
      | some (b, a) => b :: splitHashF n a) = [s]
    rw [h]

theorem splitHash_some (s : Str) (b a : Str) (h : hashScan s = some (b, a)) :
    splitHash s = b :: splitHash a := by
  show splitHashF s.length s = _
  have hlt := hashScan_shrinks s b a h
  cases hl : s.length with
  | zero =>
    have : s = [] := List.length_eq_zero.mp (by omega)
    subst this
    rw [show hashScan ([] : Str) = none from rfl] at h
    exact absurd h (by simp)
  | succ n =>
    show (match hashScan s with
      | none => [s]
      | some (b, a) => b :: splitHashF n a) = _
    rw [h]
    show b :: splitHashF n a = _
    rw [splitHashF_fuel_eq n a.length a (by omega) (le_refl _)]
    rfl

theorem splitHash_ne_nil (s : Str) : splitHash s ≠ [] := by
  cases hsc : hashScan s with
  | none => rw [splitHash_none s hsc]; simp
  | some ba => rw [splitHash_some s ba.1 ba.2 (by rw [hsc])]; simp

theorem splitHash_head (s : Str) :
    (splitHash s).headD [] = (match hashScan s with
      | none => s
      | some (b, _) => b) := by
  cases hsc : hashScan s with
  | none => rw [splitHash_none s hsc]; rfl
  | some ba => rw [splitHash_some s ba.1 ba.2 (by rw [hsc])]; rfl

/-! ## Claim C3 — reasoning/answer extraction around the `####` marker -/

/-- C3 fails as stated: with two occurrences of the marker, Python's
`split("####")` makes `parts[1]` the text strictly between the first and the
second occurrence — not everything after the first occurrence — and both
parts are stripped.  On "a #### b #### c" the code produces answer "b",
while everything after the first marker (stripped) is "b #### c"; the
reasoning likewise is the stripped "a", not the raw prefix "a ". -/
theorem claim_C3_cex :
    (extractReasoningAnswer (ofS "a #### b #### c")).1 = ofS "a" ∧
      (extractReasoningAnswer (ofS "a #### b #### c")).2 = ofS "b" ∧
      hashScan (ofS "a #### b #### c") = some (ofS "a ", ofS " b #### c") ∧
      pyStrip (ofS " b #### c") = ofS "b #### c" ∧
      ofS "b" ≠ ofS "b #### c" ∧ ofS "a" ≠ ofS "a " := by
  refine ⟨by decide, by decide, by decide, by decide, by decide, by decide⟩

/-- C3 amended: the orchestrator splits on every occurrence of `####`; the
reasoning is the text before the first occurrence, stripped; the answer is
the text strictly between the first occurrence and the next one (or the end
of the text), stripped; when the marker is absent the reasoning is the whole
text, stripped, and the answer is the sentinel. -/
theorem claim_C3 (full : Str) :
    (hashScan full = none → extractReasoningAnswer full = (pyStrip full, noAnswerSentinel)) ∧
      (∀ b a, hashScan full = some (b, a) →
        extractReasoningAnswer full =
          (pyStrip b, pyStrip (match hashScan a with
            | none => a
            | some (b2, _) => b2))) := by
  constructor
  · intro h
    unfold extractReasoningAnswer
    rw [splitHash_none full h]
    rfl
  · intro b a h
    unfold extractReasoningAnswer
    rw [splitHash_some full b a h]
    have hlen : 1 < (b :: splitHash a).length := by
      simp only [List.length_cons]
      have := List.length_pos.mpr (splitHash_ne_nil a)
      omega
    show (pyStrip ((b :: splitHash a).headD []),
      if 1 < (b :: splitHash a).length then pyStrip ((b :: splitHash a).getD 1 [])
      else noAnswerSentinel) = _
    rw [if_pos hlen]
    show (pyStrip b, pyStrip ((splitHash a).getD 0 [])) = _
    have : (splitHash a).getD 0 [] = (splitHash a).headD [] := by
      cases splitHash a <;> rfl
    rw [this, splitHash_head a]

/-- Witness for C3 at concrete inputs covering both branches. -/
theorem claim_C3_witness :
    extractReasoningAnswer (ofS "no marker here") =
      (pyStrip (ofS "no marker here"), noAnswerSentinel) ∧
      extractReasoningAnswer (ofS "x #### y") = (pyStrip (ofS "x "), pyStrip (ofS " y")) :=
  ⟨(claim_C3 (ofS "no marker here")).1 (by decide),
    (claim_C3 (ofS "x #### y")).2 (ofS "x ") (ofS " y") (by decide)⟩

/-! ## Claim C5 — the selector's first-match decision order -/

/-- C5: `select_approach` applies a first-match decision order: a complexity
score above the domain's threshold always yields CoT regardless of history;
otherwise a recorded CoD accuracy below the domain's accuracy threshold
yields CoT (the analytics collaborator groups rows by domain and approach,
so at most one CoD row exists — the uniqueness hypothesis); otherwise the
result is CoD with the fixed default justification. -/
theorem claim_C5 (perf : List PerfEntry) (problem domain : Str) (score : ℤ) :
    ((selectorPrefs domain).complexity_threshold < score →
      selectApproach perf problem domain (some score) =
        (ofS "CoT", .complexityExceeds score (selectorPrefs domain).complexity_threshold)) ∧
      (¬ (selectorPrefs domain).complexity_threshold < score →
        (∀ p ∈ perf, p.approach = ofS "CoD" → ∀ q ∈ perf, q.approach = ofS "CoD" → p = q) →
        ∀ a : ℚ, (∃ p ∈ perf, p.approach = ofS "CoD" ∧ p.accuracy = some a) →
          a < (selectorPrefs domain).accuracy_threshold →
          selectApproach perf problem domain (some score) =
            (ofS "CoT", .accuracyBelow a (selectorPrefs domain).accuracy_threshold)) ∧
      (¬ (selectorPrefs domain).complexity_threshold < score →
        (∀ p ∈ perf, p.approach = ofS "CoD" → ∀ a : ℚ, p.accuracy = some a →
          (selectorPrefs domain).accuracy_threshold ≤ a) →
        selectApproach perf problem domain (some score) = (ofS "CoD", .defaultTerse)) := by
  refine ⟨?_, ?_, ?_⟩
  · intro h
    unfold selectApproach
    simp only [Option.getD_some]
    rw [if_pos h]
  · intro hnot huniq a hex hlt
    obtain ⟨p, hp_mem, hp_cod, hp_acc⟩ := hex
    unfold selectApproach
    simp only [Option.getD_some]
    rw [if_neg hnot]
    cases hf : perf.find? (fun q => q.approach = ofS "CoD") with
    | none =>
      have := List.find?_eq_none.mp hf p hp_mem
      simp [hp_cod] at this
    | some q =>
      have hq_pred := List.find?_some hf
      have hq_mem := List.mem_of_find?_eq_some hf
      have hqp : q = p := huniq q hq_mem (by simpa using hq_pred) p hp_mem hp_cod
      show (match (some q).bind (fun p => p.accuracy) with
        | some a =>
          if a < (selectorPrefs domain).accuracy_threshold then
            (ofS "CoT", ApproachReason.accuracyBelow a (selectorPrefs domain).accuracy_threshold)
          else (ofS "CoD", ApproachReason.defaultTerse)
        | none => (ofS "CoD", ApproachReason.defaultTerse)) = _
      rw [show (some q).bind (fun p => p.accuracy) = q.accuracy from rfl, hqp, hp_acc]
      show (if a < (selectorPrefs domain).accuracy_threshold then _ else _) = _
      rw [if_pos hlt]
  · intro hnot hall
    unfold selectApproach
    simp only [Option.getD_some]
    rw [if_neg hnot]
    cases hf : perf.find? (fun q => q.approach = ofS "CoD") with
    | none => rfl
    | some q =>
      have hq_pred : q.approach = ofS "CoD" := by simpa using List.find?_some hf
      have hq_mem := List.mem_of_find?_eq_some hf
      show (match (some q).bind (fun p => p.accuracy) with
        | some a =>
          if a < (selectorPrefs domain).accuracy_threshold then
            (ofS "CoT", ApproachReason.accuracyBelow a (selectorPrefs domain).accuracy_threshold)
          else (ofS "CoD", ApproachReason.defaultTerse)
        | none => (ofS "CoD", ApproachReason.defaultTerse)) = _
      rw [show (some q).bind (fun p => p.accuracy) = q.accuracy from rfl]
      cases hacc : q.accuracy with
      | none => rfl
      | some a =>
        show (if a < (selectorPrefs domain).accuracy_threshold then _ else _) = _
        rw [if_neg (not_lt.mpr (hall q hq_mem hq_pred a hacc))]

/-- Witness for C5 exercising each of the three decision tiers at concrete
inputs (domain "math" with thresholds 7 and 0.85). -/
theorem claim_C5_witness :
    selectApproach [] (ofS "p") (ofS "math") (some 8) =
      (ofS "CoT", .complexityExceeds 8 (selectorPrefs (ofS "math")).complexity_threshold) ∧
      selectApproach [⟨ofS "math", ofS "CoD", 100, 50, some (1/2), 3⟩]
          (ofS "p") (ofS "math") (some 5) =
        (ofS "CoT", .accuracyBelow (1/2) (selectorPrefs (ofS "math")).accuracy_threshold) ∧
      selectApproach [] (ofS "p") (ofS "math") (some 5) = (ofS "CoD", .defaultTerse) := by
  refine ⟨(claim_C5 [] (ofS "p") (ofS "math") 8).1 (by decide),
    (claim_C5 [⟨ofS "math", ofS "CoD", 100, 50, some (1/2), 3⟩] (ofS "p") (ofS "math") 5).2.1
      (by decide) ?_ (1/2) ⟨_, List.mem_singleton_self _, rfl, rfl⟩ (by decide),
    (claim_C5 [] (ofS "p") (ofS "math") 5).2.2 (by decide) (by intro p hp; simp at hp)⟩
  intro p hp _ q hq _
  rw [List.mem_singleton] at hp hq
  rw [hp, hq]

/-! ## Claim C8 — verbosity-budget resolution -/

/-- C8 fails as stated: a caller-supplied `max_words_per_step` override does
not win.  With the defaults (adaptive budgeting on) and the CoD strategy,
the budget is the complexity score (here 5), ignoring the caller's 42. -/
theorem claim_C8_cex :
    (solveWithReasoning defaultSettings
        { max_words_per_step := some 42, approach := some (ofS "CoD") }
        [] ⟨[], ⟨0, 0⟩⟩ (ofS "hi") (ofS "general")).1.word_limit = 5 ∧
      (mergeSettings defaultSettings
        { max_words_per_step := some 42, approach := some (ofS "CoD") }).max_words_per_step = 42 ∧
      (5 : ℕ) ≠ 42 := by
  refine ⟨by decide, by decide, by decide⟩

/-- C8 amended: the budget check tests adaptive budgeting first — if
adaptive budgeting is enabled (in the merged settings) and the strategy is
CoD, the budget is the complexity score, regardless of any caller-supplied
`max_words_per_step`; otherwise the budget is the merged
`max_words_per_step`, for which a caller-supplied value does override the
stored default. -/
theorem claim_C8 (settings : ClientSettings) (kw : SolveOverrides) (perf : List PerfEntry)
    (response : LLMResponse) (p d : Str) :
    ((solveWithReasoning settings kw perf response p d).1.word_limit =
      resolveWordLimit (mergeSettings settings kw)
        ((solveWithReasoning settings kw perf response p d).1.approach)
        (estimateComplexity p d)) ∧
      (∀ (ls : ClientSettings) (ap : Str) (c : ℤ),
        (ls.adaptive_word_limit = true → ap = ofS "CoD" →
          resolveWordLimit ls ap c = c.toNat) ∧
        (ls.adaptive_word_limit = false ∨ ap ≠ ofS "CoD" →
          resolveWordLimit ls ap c = ls.max_words_per_step)) ∧
      (∀ m, kw.max_words_per_step = some m →
        (mergeSettings settings kw).max_words_per_step = m) := by
  refine ⟨rfl, ?_, ?_⟩
  · intro ls ap c
    constructor
    · intro h1 h2
      unfold resolveWordLimit
      rw [if_pos (by simp [h1, h2])]
    · intro h
      unfold resolveWordLimit
      rw [if_neg ?_]
      rcases h with h | h
      · simp [h]
      · simp [h]
  · intro m hm
    show kw.max_words_per_step.getD settings.max_words_per_step = m
    rw [hm]
    rfl

/-- Witness for C8's amended resolution rules at concrete settings. -/
theorem claim_C8_witness :
    resolveWordLimit { defaultSettings with adaptive_word_limit := true } (ofS "CoD") 5 =
        (5 : ℤ).toNat ∧
      resolveWordLimit { defaultSettings with adaptive_word_limit := false } (ofS "CoD") 5 =
        defaultSettings.max_words_per_step ∧
      (mergeSettings defaultSettings { max_words_per_step := some 42 }).max_words_per_step = 42 :=
  ⟨((claim_C8 defaultSettings {} [] ⟨[], ⟨0, 0⟩⟩ (ofS "p") (ofS "general")).2.1
      { defaultSettings with adaptive_word_limit := true } (ofS "CoD") 5).1 rfl rfl,
    ((claim_C8 defaultSettings {} [] ⟨[], ⟨0, 0⟩⟩ (ofS "p") (ofS "general")).2.1
      { defaultSettings with adaptive_word_limit := false } (ofS "CoD") 5).2 (Or.inl rfl),
    (claim_C8 defaultSettings { max_words_per_step := some 42 } [] ⟨[], ⟨0, 0⟩⟩
      (ofS "p") (ofS "general")).2.2 42 rfl⟩

/-! ## Claim C9 — caller contract errors fail fast with no side effects -/

/-- C9: a missing or empty prompt on `completions`, an empty message list on
`chat` / `messages`, or a message list without a user message, is rejected
with a synchronous error, and no generative-text call and no analytics
record happen (the effect list is empty). -/
theorem claim_C9 (settings : ClientSettings) (kw : SolveOverrides) (perf : List PerfEntry)
    (response : LLMResponse) (domain : Str) :
    completionsCall settings kw perf response none domain =
        (Except.error (ofS "Prompt is required"), []) ∧
      completionsCall settings kw perf response (some []) domain =
        (Except.error (ofS "Prompt is required"), []) ∧
      chatCall settings kw perf response [] domain =
        (Except.error (ofS "Messages are required"), []) ∧
      messagesCall settings kw perf response [] domain =
        (Except.error (ofS "Messages are required"), []) ∧
      (∀ msgs : List ChatMsg, (∀ m ∈ msgs, m.role ≠ ofS "user") → msgs ≠ [] →
        chatCall settings kw perf response msgs domain =
          (Except.error (ofS "No user message found in the provided messages"), [])) ∧
      (∀ msgs : List ChatMsg, (∀ m ∈ msgs, m.role ≠ ofS "user") → msgs ≠ [] →
        messagesCall settings kw perf response msgs domain =
          (Except.error (ofS "No user message found in the provided messages"), [])) := by
  have hlu : ∀ msgs : List ChatMsg, (∀ m ∈ msgs, m.role ≠ ofS "user") →
      lastUserContent msgs = [] := by
    intro msgs hall
    unfold lastUserContent
    rw [List.find?_eq_none.mpr ?_]
    intro m hm
    simp only [List.mem_reverse] at hm
    simpa using hall m hm
  refine ⟨rfl, rfl, rfl, rfl, ?_, ?_⟩
  · intro msgs hall hne
    unfold chatCall
    rw [if_neg (by simp [hne]), hlu msgs hall]
    rfl
  · intro msgs hall hne
    unfold messagesCall
    rw [if_neg (by simp [hne]), hlu msgs hall]
    rfl

/-- Witness for C9 on a concrete message list with no user message. -/
theorem claim_C9_witness :
    chatCall defaultSettings {} [] ⟨[], ⟨0, 0⟩⟩ [⟨ofS "assistant", ofS "hi"⟩] (ofS "general") =
      (Except.error (ofS "No user message found in the provided messages"), []) :=
  (claim_C9 defaultSettings {} [] ⟨[], ⟨0, 0⟩⟩ (ofS "general")).2.2.2.2.1
    [⟨ofS "assistant", ofS "hi"⟩] (by decide) (by decide)

/-! ## Claim C10 — the token count is the response's word count -/

/-- C10: the `token_count` of a `solve_with_reasoning` result (and the
`tokens_used` recorded to analytics, whenever tracking is on) is the number
of whitespace-separated words of the raw response content, independent of
the usage counters the generative-text collaborator reports. -/
theorem claim_C10 (settings : ClientSettings) (kw : SolveOverrides) (perf : List PerfEntry)
    (content : Str) (u u' : LLMUsage) (p d : Str) :
    (solveWithReasoning settings kw perf ⟨content, u⟩ p d).1.token_count =
        (wtokens content).length ∧
      (solveWithReasoning settings kw perf ⟨content, u⟩ p d).1.token_count =
        (solveWithReasoning settings kw perf ⟨content, u'⟩ p d).1.token_count ∧
      ((solveWithReasoning settings kw perf ⟨content, u⟩ p d).2.map
          (fun e => e.tokens_used)) =
        (if (mergeSettings settings kw).track_analytics then
          some ((wtokens content).length) else none) := by
  refine ⟨rfl, rfl, ?_⟩
  cases ht : (mergeSettings settings kw).track_analytics with
  | false => simp [solveWithReasoning, ht]
  | true => simp [solveWithReasoning, ht]

/-! ## Lemmas on whitespace runs, words and their joins -/

theorem takeWhile_all {p : Char → Bool} {xs : Str} (h : ∀ c ∈ xs, p c = true) :
    xs.takeWhile p = xs := by
  induction xs with
  | nil => rfl
  | cons a t ih =>
    rw [List.takeWhile_cons, if_pos (h a (List.mem_cons_self a t))]
    rw [ih (fun c hc => h c (List.mem_cons_of_mem a hc))]

theorem takeWhile_append_all {p : Char → Bool} {xs : Str} (ys : Str)
    (h : ∀ c ∈ xs, p c = true) :
    (xs ++ ys).takeWhile p = xs ++ ys.takeWhile p := by
  induction xs with
  | nil => rfl
  | cons a t ih =>
    rw [List.cons_append, List.takeWhile_cons, if_pos (h a (List.mem_cons_self a t)),
      ih (fun c hc => h c (List.mem_cons_of_mem a hc)), List.cons_append]

theorem takeWhile_cons_neg {p : Char → Bool} {c : Char} (r : Str) (h : ¬ p c = true) :
    (c :: r).takeWhile p = [] := by
  rw [List.takeWhile_cons, if_neg h]

theorem dropWhile_append_all {p : Char → Bool} {xs : Str} (ys : Str)
    (h : ∀ c ∈ xs, p c = true) :
    (xs ++ ys).dropWhile p = ys.dropWhile p := by
  induction xs with
  | nil => rfl
  | cons a t ih =>
    rw [List.cons_append, List.dropWhile_cons, if_pos (h a (List.mem_cons_self a t)),
      ih (fun c hc => h c (List.mem_cons_of_mem a hc))]

theorem dropWhile_cons_neg {p : Char → Bool} {c : Char} (r : Str) (h : ¬ p c = true) :
    (c :: r).dropWhile p = c :: r := by
  rw [List.dropWhile_cons, if_neg h]

/-- Every token produced by `wtokens` is a non-empty run of non-whitespace
characters. -/
theorem wtokens_words (s : Str) : ∀ t ∈ wtokens s, t ≠ [] ∧ ∀ c ∈ t, isWs c = false := by
  induction s using wtokens_ind with
  | h1 => intro t ht; rw [show wtokens [] = [] from rfl] at ht; exact absurd ht (by simp)
  | h2 c cs h ih => intro t ht; rw [tokens_ws_cons c cs h] at ht; exact ih t ht
  | h3 c cs h ih =>
    intro t ht
    rw [tokens_nonws_cons c cs h] at ht
    rcases List.mem_cons.mp ht with h1 | h1
    · subst h1
      refine ⟨by simp, ?_⟩
      intro d hd
      rcases List.mem_cons.mp hd with h2 | h2
      · subst h2; exact Bool.not_eq_true _ |>.mp h
      · have := List.mem_takeWhile_imp h2
        simpa using this
    · exact ih t h1

/-- One word chomped off the front of a split. -/
theorem tokens_word_chomp (t rest : Str) (ht : t ≠ []) (hX : ∀ c ∈ t, isWs c = false)
    (hr : rest = [] ∨ ∃ c r2, rest = c :: r2 ∧ isWs c = true) :
    wtokens (t ++ rest) = t :: wtokens rest := by
  rcases t with _ | ⟨c, cs⟩
  · exact absurd rfl ht
  · rw [List.cons_append,
      tokens_nonws_cons c (cs ++ rest) (by simp [hX c (List.mem_cons_self c cs)])]
    have hcs : ∀ d ∈ cs, (fun d => !isWs d) d = true := by
      intro d hd
      simp [hX d (List.mem_cons_of_mem c hd)]
    have h1 : (cs ++ rest).takeWhile (fun d => !isWs d) = cs := by
      rw [takeWhile_append_all rest hcs]
      rcases hr with h | ⟨e, r2, he, hws⟩
      · rw [h]; simp
      · rw [he, takeWhile_cons_neg r2 (by simp [hws]), List.append_nil]
    have h2 : (cs ++ rest).dropWhile (fun d => !isWs d) = rest := by
      rw [dropWhile_append_all rest hcs]
      rcases hr with h | ⟨e, r2, he, hws⟩
      · rw [h]; rfl
      · rw [he, dropWhile_cons_neg r2 (by simp [hws])]
    rw [h1, h2]

theorem joinCh_cons₂ (sep : Char) (a b : Str) (l : List Str) :
    joinCh sep (a :: b :: l) = a ++ sep :: joinCh sep (b :: l) := by
  show List.intercalate [sep] (a :: b :: l) = a ++ sep :: List.intercalate [sep] (b :: l)
  simp [List.intercalate, List.intersperse_cons_cons]

theorem joinCh_singleton (sep : Char) (t : Str) : joinCh sep [t] = t := by
  show List.intercalate [sep] [t] = t
  simp [List.intercalate]

/-- Splitting a single-space join of well-formed words recovers the words. -/
theorem wtokens_joinSp (ws' : List Str)
    (h : ∀ t ∈ ws', t ≠ [] ∧ ∀ c ∈ t, isWs c = false) :
    wtokens (joinSp ws') = ws' := by
  induction ws' with
  | nil => rfl
  | cons t rest ih =>
    rcases rest with _ | ⟨r, rs⟩
    · show wtokens (joinCh ' ' [t]) = [t]
      rw [joinCh_singleton]
      have hh := h t (List.mem_cons_self t [])
      have := tokens_word_chomp t [] hh.1 hh.2 (Or.inl rfl)
      rw [List.append_nil] at this
      rw [this]
      rfl
    · show wtokens (joinCh ' ' (t :: r :: rs)) = _
      rw [joinCh_cons₂ ' ' t r rs]
      have hh := h t (List.mem_cons_self t (r :: rs))
      rw [tokens_word_chomp t (' ' :: joinCh ' ' (r :: rs)) hh.1 hh.2
        (Or.inr ⟨' ', joinCh ' ' (r :: rs), rfl, by decide⟩)]
      rw [tokens_ws_cons ' ' _ (by decide)]
      show t :: wtokens (joinSp (r :: rs)) = _
      rw [ih (fun u hu => h u (List.mem_cons_of_mem t hu))]

/-- The join of at most `n` well-formed words splits into at most `n`
words. -/
theorem tokens_joinSp_take_le (n : ℕ) (x : Str) :
    (wtokens (joinSp ((wtokens x).take n))).length ≤ n := by
  rw [wtokens_joinSp _ (fun t ht => wtokens_words x t (List.mem_of_mem_take ht))]
  exact le_trans (List.length_take_le n _) (le_refl _)

/-- A join of well-formed words is empty or starts with a non-whitespace
character. -/
theorem joinSp_nil_or_head (ws' : List Str)
    (h : ∀ t ∈ ws', t ≠ [] ∧ ∀ c ∈ t, isWs c = false) :
    joinSp ws' = [] ∨ ∃ c w2, joinSp ws' = c :: w2 ∧ isWs c = false := by
  rcases ws' with _ | ⟨t, rest⟩
  · exact Or.inl rfl
  · right
    have hh := h t (List.mem_cons_self t rest)
    obtain ⟨c, cs, rfl⟩ : ∃ c cs, t = c :: cs := by
      cases t with
      | nil => exact absurd rfl hh.1
      | cons c cs => exact ⟨c, cs, rfl⟩
    have hc : isWs c = false := hh.2 c (List.mem_cons_self c cs)
    rcases rest with _ | ⟨r, rs⟩
    · refine ⟨c, cs, ?_, hc⟩
      show joinCh ' ' [c :: cs] = _
      rw [joinCh_singleton]
    · refine ⟨c, cs ++ ' ' :: joinCh ' ' (r :: rs), ?_, hc⟩
      show joinCh ' ' ((c :: cs) :: r :: rs) = _
      rw [joinCh_cons₂ ' ' (c :: cs) r rs, List.cons_append]

/-! ## Character-class facts -/

theorem ws_not_digit (c : Char) (h : isWs c = true) : isDigit c = false := by
  simp only [isWs, Bool.or_eq_true, decide_eq_true_eq] at h
  rcases h with ((((h | h) | h) | h) | h) | h <;> subst h <;> decide

theorem digit_not_ws (c : Char) (h : isDigit c = true) : isWs c = false := by
  by_cases hw : isWs c = true
  · rw [ws_not_digit c hw] at h
    exact absurd h (by simp)
  · exact Bool.not_eq_true _ |>.mp hw

theorem ws_ne_char (c x : Char) (hc : isWs c = true) (hx : isWs x = false) : c ≠ x := by
  intro he
  rw [he, hx] at hc
  exact absurd hc (by simp)

/-! ## Inversion, forward and failure lemmas for the marker matchers -/

theorem numDot_inv (s m : Str) (h : markerNumDot s = some m) :
    ∃ ds t, ds ≠ [] ∧ (∀ c ∈ ds, isDigit c = true) ∧ (∀ c ∈ t, isWs c = true) ∧
      m = ds ++ '.' :: t := by
  simp only [markerNumDot] at h
  by_cases hE : (s.takeWhile isDigit).isEmpty = true
  · rw [if_pos hE] at h
    exact absurd h (by simp)
  · rw [if_neg hE] at h
    split at h
    · rename_i rest heq
      injection h with h1
      exact ⟨s.takeWhile isDigit, rest.takeWhile isWs,
        (by intro hc; rw [hc] at hE; exact hE rfl),
        fun c hc => List.mem_takeWhile_imp hc,
        fun c hc => List.mem_takeWhile_imp hc, h1.symm⟩
    · exact absurd h (by simp)

theorem numDot_fwd (ds t w : Str) (hds : ds ≠ []) (hdd : ∀ c ∈ ds, isDigit c = true)
    (ht : ∀ c ∈ t, isWs c = true)
    (hw : w = [] ∨ ∃ c w2, w = c :: w2 ∧ isWs c = false) :
    markerNumDot (ds ++ '.' :: (t ++ w)) = some (ds ++ '.' :: t) := by
  simp only [markerNumDot]
  have h1 : (ds ++ '.' :: (t ++ w)).takeWhile isDigit = ds := by
    rw [takeWhile_append_all _ hdd, takeWhile_cons_neg _ (by decide), List.append_nil]
  rw [h1, if_neg (by simp [hds]), List.drop_left]
  show some (ds ++ '.' :: (t ++ w).takeWhile isWs) = _
  rw [takeWhile_append_all _ ht]
  rcases hw with hnil | ⟨c, w2, hcw, hws⟩
  · rw [hnil]
    simp
  · rw [hcw, takeWhile_cons_neg _ (by simp [hws]), List.append_nil]

theorem numDot_none_head (c : Char) (x : Str) (h : isDigit c = false) :
    markerNumDot (c :: x) = none := by
  simp only [markerNumDot]
  rw [takeWhile_cons_neg x (by simp [h])]
  rfl

theorem stepColon_inv (s m : Str) (h : markerStepColon s = some m) :
    ∃ w ds, w ≠ [] ∧ (∀ c ∈ w, isWs c = true) ∧ ds ≠ [] ∧ (∀ c ∈ ds, isDigit c = true) ∧
      m = ofS "Step" ++ w ++ ds ++ [':'] := by
  simp only [markerStepColon] at h
  by_cases h0 : startsWith (ofS "Step") s = true
  · rw [if_pos h0] at h
    by_cases h1 : ((s.drop 4).takeWhile isWs).isEmpty = true
    · rw [if_pos h1] at h
      exact absurd h (by simp)
    · rw [if_neg h1] at h
      by_cases h2 : (((s.drop 4).drop ((s.drop 4).takeWhile isWs).length).takeWhile
          isDigit).isEmpty = true
      · rw [if_pos h2] at h
        exact absurd h (by simp)
      · rw [if_neg h2] at h
        split at h
        · rename_i rest heq
          injection h with h3
          exact ⟨(s.drop 4).takeWhile isWs,
            ((s.drop 4).drop ((s.drop 4).takeWhile isWs).length).takeWhile isDigit,
            (by intro hc; rw [hc] at h1; exact h1 rfl),
            fun c hc => List.mem_takeWhile_imp hc,
            (by intro hc; rw [hc] at h2; exact h2 rfl),
            fun c hc => List.mem_takeWhile_imp hc, h3.symm⟩
        · exact absurd h (by simp)
  · rw [if_neg h0] at h
    exact absurd h (by simp)

theorem startsWith_append_self (xs ys : Str) : startsWith xs (xs ++ ys) = true := by
  induction xs with
  | nil => rfl
  | cons a t ih =>
    rw [List.cons_append]
    show (decide (a = a) && startsWith t (t ++ ys)) = true
    rw [ih]
    simp

theorem stepColon_fwd (w ds rest : Str) (hw : w ≠ []) (hws : ∀ c ∈ w, isWs c = true)
    (hds : ds ≠ []) (hdd : ∀ c ∈ ds, isDigit c = true) :
    markerStepColon (ofS "Step" ++ (w ++ (ds ++ ':' :: rest))) =
      some (ofS "Step" ++ w ++ ds ++ [':']) := by
  obtain ⟨d, ds', rfl⟩ : ∃ d ds', ds = d :: ds' := by
    cases ds with
    | nil => exact absurd rfl hds
    | cons d ds' => exact ⟨d, ds', rfl⟩
  simp only [markerStepColon]
  rw [if_pos (startsWith_append_self _ _)]
  have hdrop : (ofS "Step" ++ (w ++ ((d :: ds') ++ ':' :: rest))).drop 4 =
      w ++ ((d :: ds') ++ ':' :: rest) := List.drop_left (ofS "Step") _
  rw [hdrop]
  have h1 : (w ++ ((d :: ds') ++ ':' :: rest)).takeWhile isWs = w := by
    rw [takeWhile_append_all _ hws, List.cons_append,
      takeWhile_cons_neg _ (by simp [digit_not_ws d (hdd d (List.mem_cons_self d ds'))]),
      List.append_nil]
  rw [h1, if_neg (by simp [hw]), List.drop_left]
  have h2 : ((d :: ds') ++ ':' :: rest).takeWhile isDigit = d :: ds' := by
    rw [takeWhile_append_all _ hdd, takeWhile_cons_neg _ (by decide), List.append_nil]
  rw [h2, if_neg (by simp), List.drop_left]
  rfl

theorem stepColon_none_head (c : Char) (x : Str) (h : c ≠ 'S') :
    markerStepColon (c :: x) = none := by
  simp only [markerStepColon]
  rw [if_neg ?_]
  show ¬ (startsWith ('S' :: ofS "tep") (c :: x)) = true
  show ¬ (decide ('S' = c) && startsWith (ofS "tep") x) = true
  simp
  intro hh
  exact absurd hh.symm h

theorem symWs_inv (mark : Char) (s m : Str) (h : markerSymWs mark s = some m) :
    ∃ w1 w2, (∀ d ∈ w1, isWs d = true) ∧ w2 ≠ [] ∧ (∀ d ∈ w2, isWs d = true) ∧
      m = w1 ++ mark :: w2 := by
  simp only [markerSymWs] at h
  split at h
  · rename_i c rest heq
    by_cases hcm : c = mark
    · rw [if_pos hcm] at h
      by_cases hE : (rest.takeWhile isWs).isEmpty = true
      · rw [if_pos hE] at h
        exact absurd h (by simp)
      · rw [if_neg hE] at h
        injection h with h1
        refine ⟨s.takeWhile isWs, rest.takeWhile isWs,
          fun d hd => List.mem_takeWhile_imp hd,
          (by intro hc; rw [hc] at hE; exact hE rfl),
          fun d hd => List.mem_takeWhile_imp hd, ?_⟩
        rw [← h1, hcm]
    · rw [if_neg hcm] at h
      exact absurd h (by simp)
  · exact absurd h (by simp)

theorem symWs_fwd (mark : Char) (w1 w2 w : Str) (hmark : isWs mark = false)
    (hw1 : ∀ d ∈ w1, isWs d = true) (hw2 : w2 ≠ []) (hw2a : ∀ d ∈ w2, isWs d = true)
    (hw : w = [] ∨ ∃ c x, w = c :: x ∧ isWs c = false) :
    markerSymWs mark (w1 ++ mark :: (w2 ++ w)) = some (w1 ++ mark :: w2) := by
  simp only [markerSymWs]
  have h1 : (w1 ++ mark :: (w2 ++ w)).takeWhile isWs = w1 := by
    rw [takeWhile_append_all _ hw1, takeWhile_cons_neg _ (by simp [hmark]), List.append_nil]
  rw [h1, List.drop_left]
  show (if mark = mark then _ else none) = _
  rw [if_pos rfl]
  have h2 : (w2 ++ w).takeWhile isWs = w2 := by
    rw [takeWhile_append_all _ hw2a]
    rcases hw with hnil | ⟨c, x, hcx, hws⟩
    · rw [hnil]; simp
    · rw [hcx, takeWhile_cons_neg _ (by simp [hws]), List.append_nil]
  rw [h2, if_neg (by simp [hw2])]

theorem symWs_none_shape (mark c : Char) (w1 x : Str) (hw1 : ∀ d ∈ w1, isWs d = true)
    (hc : isWs c = false) (hne : c ≠ mark) : markerSymWs mark (w1 ++ c :: x) = none := by
  simp only [markerSymWs]
  have h1 : (w1 ++ c :: x).takeWhile isWs = w1 := by
    rw [takeWhile_append_all _ hw1, takeWhile_cons_neg _ (by simp [hc]), List.append_nil]
  rw [h1, List.drop_left]
  show (if c = mark then _ else none) = none
  rw [if_neg hne]

theorem bullet_inv (s m : Str) (h : markerBullet s = some m) :
    ∃ w2, w2 ≠ [] ∧ (∀ d ∈ w2, isWs d = true) ∧ m = '•' :: w2 := by
  simp only [markerBullet] at h
  split at h
  · rename_i c rest
    by_cases hcb : c = '•'
    · rw [if_pos hcb] at h
      by_cases hE : (rest.takeWhile isWs).isEmpty = true
      · rw [if_pos hE] at h
        exact absurd h (by simp)
      · rw [if_neg hE] at h
        injection h with h1
        refine ⟨rest.takeWhile isWs, (by intro hc; rw [hc] at hE; exact hE rfl),
          fun d hd => List.mem_takeWhile_imp hd, ?_⟩
        rw [← h1, hcb]
    · rw [if_neg hcb] at h
      exact absurd h (by simp)
  · exact absurd h (by simp)

theorem bullet_fwd (w2 w : Str) (hw2 : w2 ≠ []) (hw2a : ∀ d ∈ w2, isWs d = true)
    (hw : w = [] ∨ ∃ c x, w = c :: x ∧ isWs c = false) :
    markerBullet ('•' :: (w2 ++ w)) = some ('•' :: w2) := by
  simp only [markerBullet, if_pos trivial]
  have h2 : (w2 ++ w).takeWhile isWs = w2 := by
    rw [takeWhile_append_all _ hw2a]
    rcases hw with hnil | ⟨c, x, hcx, hws⟩
    · rw [hnil]; simp
    · rw [hcx, takeWhile_cons_neg _ (by simp [hws]), List.append_nil]
  rw [h2, if_neg (by simp [hw2])]

theorem bullet_none_head (c : Char) (x : Str) (h : c ≠ '•') :
    markerBullet (c :: x) = none := by
  simp only [markerBullet]
  rw [if_neg h]


theorem numDot_none_ws_shape (w1 : Str) (c : Char) (x : Str)
    (hw1 : ∀ d ∈ w1, isWs d = true) (hc : isDigit c = false) :
    markerNumDot (w1 ++ c :: x) = none := by
  cases w1 with
  | nil => exact numDot_none_head c x hc
  | cons d w1' =>
    exact numDot_none_head d (w1' ++ c :: x)
      (ws_not_digit d (hw1 d (List.mem_cons_self d w1')))

theorem stepColon_none_ws_shape (w1 : Str) (c : Char) (x : Str)
    (hw1 : ∀ d ∈ w1, isWs d = true) (hc : c ≠ 'S') :
    markerStepColon (w1 ++ c :: x) = none := by
  cases w1 with
  | nil => exact stepColon_none_head c x hc
  | cons d w1' =>
    exact stepColon_none_head d (w1' ++ c :: x)
      (ws_ne_char d 'S' (hw1 d (List.mem_cons_self d w1')) (by decide))

/-- Stability of the marker match under re-assembly: if the matcher found
marker `m` in a step, then running it on `m` followed by any text that is
empty or starts with a non-whitespace character finds exactly `m` again
(and `m` is non-empty). -/
theorem markerMatch_stable (s m w : Str) (h : markerMatch s = some m)
    (hw : w = [] ∨ ∃ c w2, w = c :: w2 ∧ isWs c = false) :
    markerMatch (m ++ w) = some m ∧ m ≠ [] := by
  unfold markerMatch at h
  cases h1 : markerNumDot s with
  | some m1 =>
    rw [h1] at h
    injection h with hm
    subst hm
    obtain ⟨ds, t, hds, hdd, ht, rfl⟩ := numDot_inv s m1 h1
    refine ⟨?_, by simp [hds]⟩
    have hE : (ds ++ '.' :: t) ++ w = ds ++ '.' :: (t ++ w) := by
      simp [List.append_assoc]
    unfold markerMatch
    rw [hE, numDot_fwd ds t w hds hdd ht hw]
  | none =>
    rw [h1] at h
    cases h2 : markerStepColon s with
    | some m1 =>
      rw [h2] at h
      injection h with hm
      subst hm
      obtain ⟨w0, ds, hw0, hws0, hds, hdd, rfl⟩ := stepColon_inv s m1 h2
      constructor
      · have hE : (ofS "Step" ++ w0 ++ ds ++ [':']) ++ w =
            ofS "Step" ++ (w0 ++ (ds ++ ':' :: w)) := by
          simp [List.append_assoc]
        have hA : markerNumDot (ofS "Step" ++ (w0 ++ (ds ++ ':' :: w))) = none :=
          numDot_none_head 'S' (ofS "tep" ++ (w0 ++ (ds ++ ':' :: w))) (by decide)
        unfold markerMatch
        rw [hE, hA, stepColon_fwd w0 ds w hw0 hws0 hds hdd]
      · intro hnil
        have := congrArg List.length hnil
        simp [ofS] at this
    | none =>
      rw [h2] at h
      cases h3 : markerSymWs '-' s with
      | some m1 =>
        rw [h3] at h
        injection h with hm
        subst hm
        obtain ⟨w1, w2, hw1, hw2, hw2a, rfl⟩ := symWs_inv '-' s m1 h3
        constructor
        · have hE : (w1 ++ '-' :: w2) ++ w = w1 ++ '-' :: (w2 ++ w) := by
            simp [List.append_assoc]
          unfold markerMatch
          rw [hE, numDot_none_ws_shape w1 '-' (w2 ++ w) hw1 (by decide),
            stepColon_none_ws_shape w1 '-' (w2 ++ w) hw1 (by decide),
            symWs_fwd '-' w1 w2 w (by decide) hw1 hw2 hw2a hw]
        · cases w1 <;> simp
      | none =>
        rw [h3] at h
        cases h4 : markerSymWs '*' s with
        | some m1 =>
          rw [h4] at h
          injection h with hm
          subst hm
          obtain ⟨w1, w2, hw1, hw2, hw2a, rfl⟩ := symWs_inv '*' s m1 h4
          constructor
          · have hE : (w1 ++ '*' :: w2) ++ w = w1 ++ '*' :: (w2 ++ w) := by
              simp [List.append_assoc]
            unfold markerMatch
            rw [hE, numDot_none_ws_shape w1 '*' (w2 ++ w) hw1 (by decide),
              stepColon_none_ws_shape w1 '*' (w2 ++ w) hw1 (by decide),
              symWs_none_shape '-' '*' w1 (w2 ++ w) hw1 (by decide) (by decide),
              symWs_fwd '*' w1 w2 w (by decide) hw1 hw2 hw2a hw]
          · cases w1 <;> simp
        | none =>
          rw [h4] at h
          cases h5 : markerBullet s with
          | some m1 =>
            rw [h5] at h
            injection h with hm
            subst hm
            obtain ⟨w2, hw2, hw2a, rfl⟩ := bullet_inv s m1 h5
            refine ⟨?_, by simp⟩
            have hE : ('•' :: w2) ++ w = '•' :: (w2 ++ w) := rfl
            have hC : markerSymWs '-' ('•' :: (w2 ++ w)) = none :=
              symWs_none_shape '-' '•' [] (w2 ++ w) (by simp) (by decide) (by decide)
            have hD : markerSymWs '*' ('•' :: (w2 ++ w)) = none :=
              symWs_none_shape '*' '•' [] (w2 ++ w) (by simp) (by decide) (by decide)
            unfold markerMatch
            rw [hE, numDot_none_head '•' _ (by decide),
              stepColon_none_head '•' _ (by decide), hC, hD,
              bullet_fwd w2 w hw2 hw2a hw]
          | none =>
            rw [h5] at h
            exact absurd h (by simp)

/-- The central per-step bound: after `_enforce_step`, the marker-stripped
word count of a step never exceeds the limit. -/
theorem stepContentCount_enforceStep (N : ℕ) (s : Str) :
    stepContentCount (enforceStep N s) ≤ N := by
  by_cases h : (wtokens s).length ≤ N
  · unfold enforceStep
    rw [if_pos h]
    exact le_trans (stepContentCount_le_tokens s) h
  · unfold enforceStep
    rw [if_neg h]
    cases hm : markerMatch s with
    | none =>
      simp only [hm, Option.getD_none]
      show stepContentCount (joinSp ((wtokens s).take N)) ≤ N
      exact le_trans (stepContentCount_le_tokens _) (tokens_joinSp_take_le N s)
    | some m =>
      simp only [hm, Option.getD_some]
      have hmne := (markerMatch_stable s m [] hm (Or.inl rfl)).2
      have hif : (if m.isEmpty = true then s else pyStrip (s.drop m.length)) =
          pyStrip (s.drop m.length) := if_neg (by simp [hmne])
      rw [hif]
      have hwords : ∀ t ∈ (wtokens (pyStrip (s.drop m.length))).take N,
          t ≠ [] ∧ ∀ c ∈ t, isWs c = false :=
        fun t ht => wtokens_words _ t (List.mem_of_mem_take ht)
      have htrunc_shape := joinSp_nil_or_head _ hwords
      have hstab := (markerMatch_stable s m
        (joinSp ((wtokens (pyStrip (s.drop m.length))).take N)) hm htrunc_shape).1
      unfold stepContentCount
      rw [hstab]
      simp only [Option.getD_some]
      rw [if_neg (by simp [hmne]), List.drop_left]
      calc (wtokens (pyStrip (joinSp ((wtokens (pyStrip (s.drop m.length))).take N)))).length
          ≤ (wtokens (joinSp ((wtokens (pyStrip (s.drop m.length))).take N))).length :=
            tokens_pyStrip_le _
        _ ≤ N := tokens_joinSp_take_le N _

/-! ## Claim C2 — the word-limit enforcement pass -/

/-- C2 fails as stated: byte-identity for steps whose stripped content is
within the limit does not hold, because `_enforce_step` gates on the raw
token count including the marker.  The single step "Step 1: a b c" has
stripped content of exactly 3 words, yet `enforce_word_limit(…, 3)`
re-serialises it as "Step 1:a b c" (losing the space after the colon). -/
theorem claim_C2_cex :
    splitIntoSteps (ofS "Step 1: a b c") = [ofS "Step 1: a b c"] ∧
      stepContentCount (ofS "Step 1: a b c") = 3 ∧
      enforceWordLimit (ofS "Step 1: a b c") 3 = ofS "Step 1:a b c" ∧
      ofS "Step 1:a b c" ≠ ofS "Step 1: a b c" := by
  refine ⟨by decide, by decide, by decide, by decide⟩

/-- C2 amended: `enforce_word_limit` maps `_enforce_step` over the split
steps in order (one output step per input step); every processed step has
marker-stripped word count at most N; and a step passes through
byte-identical when its raw whitespace-token count (marker words included)
is at most N.  Steps whose stripped content is within the limit but whose
raw token count is not may be re-serialised (marker spacing normalised),
as the counterexample shows.  (The raw-count condition is sufficient, not
necessary: an over-limit step can still reassemble to its original bytes,
see `enforceStep_unchanged_despite_over_limit`.) -/
theorem claim_C2 (text : Str) (N : ℕ) :
    enforceWordLimit text N = joinNL ((splitIntoSteps text).map (enforceStep N)) ∧
      ((splitIntoSteps text).map (enforceStep N)).length = (splitIntoSteps text).length ∧
      (∀ s ∈ (splitIntoSteps text).map (enforceStep N), stepContentCount s ≤ N) ∧
      (∀ s ∈ splitIntoSteps text, (wtokens s).length ≤ N → enforceStep N s = s) := by
  refine ⟨rfl, List.length_map _ _, ?_, ?_⟩
  · intro s hs
    obtain ⟨t, ht, rfl⟩ := List.mem_map.mp hs
    exact stepContentCount_enforceStep N t
  · intro s hs h
    unfold enforceStep
    rw [if_pos h]

/-- Witness for C2 on concrete inputs. -/
theorem claim_C2_witness :
    (∀ s ∈ (splitIntoSteps (ofS "1. alpha beta gamma delta\nmore text here")).map
        (enforceStep 3), stepContentCount s ≤ 3) ∧
      enforceStep 3 (ofS "1. a b") = ofS "1. a b" :=
  ⟨(claim_C2 (ofS "1. alpha beta gamma delta\nmore text here") 3).2.2.1,
    (claim_C2 (ofS "1. a b") 3).2.2.2 (ofS "1. a b") (by decide) (by decide)⟩

/-- The raw-token gate of `_enforce_step` is sufficient but not necessary
for byte-identity: this step has 4 raw whitespace tokens, above the limit 3,
yet the marker regex captures "1. " including its trailing space and the 3
content words reassemble to exactly the original bytes. -/
theorem enforceStep_unchanged_despite_over_limit :
    3 < (wtokens (ofS "1. a b c")).length ∧
      enforceWordLimit (ofS "1. a b c") 3 = ofS "1. a b c" := by
  refine ⟨by decide, by decide⟩

/-- Unfolding of the adherence rate of `analyze_adherence`. -/
theorem adherence_rate_eq (t : Str) (N : ℕ) :
    (analyzeAdherence t N).adherence_rate =
      if (splitIntoSteps t).isEmpty then 1
      else ((((splitIntoSteps t).map stepContentCount).filter
          (fun c => c ≤ N)).length : ℚ) / ((splitIntoSteps t).length : ℚ) := rfl

/-- C4 counterexample: the round-trip identity
`analyze_adherence(enforce_word_limit(t, N), N).adherence_rate = 1.0` fails.
The input "alpha wordStep beta\n12: x y" contains no step-marker pattern, so
it is split into its two stripped lines and each line is truncated to its
first 2 words.  But the output "alpha wordStep\n12: x" now matches the
`Step\s+\d+:` pattern *across the line break* ("Step" + newline + "12:"), so
re-analysis takes the marker path; neither individual line is a step-start
line, so the whole output merges into a single step of 4 content words,
giving adherence rate 0 instead of 1. -/
theorem claim_C4_cex :
    hasStepMarker (ofS "alpha wordStep beta\n12: x y") = false ∧
      enforceWordLimit (ofS "alpha wordStep beta\n12: x y") 2 =
        ofS "alpha wordStep\n12: x" ∧
      hasStepMarker (ofS "alpha wordStep\n12: x") = true ∧
      (analyzeAdherence (enforceWordLimit
        (ofS "alpha wordStep beta\n12: x y") 2) 2).adherence_rate = 0 := by
  refine ⟨by decide, by decide, by decide, by decide⟩

/-- C4 amended: `analyze_adherence(text, N).adherence_rate` always lies in
[0, 1], and equals 1.0 when the text splits into zero steps.  The round-trip
identity with `enforce_word_limit` holds only conditionally: whenever
re-splitting the enforced output yields exactly the list of enforced steps
(i.e. enforcement did not disturb the step segmentation), the rate is 1.0.
It is not 1.0 for every input: truncation can create a new step-marker
pattern spanning a line break, which changes the segmentation of the output
(see the counterexample). -/
theorem claim_C4 :
    (∀ t (N : ℕ), 0 ≤ (analyzeAdherence t N).adherence_rate ∧
        (analyzeAdherence t N).adherence_rate ≤ 1) ∧
      (∀ t (N : ℕ), splitIntoSteps t = [] →
        (analyzeAdherence t N).adherence_rate = 1) ∧
      (∀ t (N : ℕ), splitIntoSteps (enforceWordLimit t N) =
          (splitIntoSteps t).map (enforceStep N) →
        (analyzeAdherence (enforceWordLimit t N) N).adherence_rate = 1) := by
  refine ⟨?_, ?_, ?_⟩
  · intro t N
    rw [adherence_rate_eq]
    constructor
    · split
      · exact zero_le_one
      · exact div_nonneg (Nat.cast_nonneg _) (Nat.cast_nonneg _)
    · split
      · exact le_refl 1
      · rename_i hne
        have h0 : splitIntoSteps t ≠ [] := by
          intro he
          exact hne (by rw [he]; rfl)
        have hpos : (0 : ℚ) < ((splitIntoSteps t).length : ℚ) := by
          exact_mod_cast List.length_pos.mpr h0
        rw [div_le_one hpos]
        have hlen : (((splitIntoSteps t).map stepContentCount).filter
            (fun c => c ≤ N)).length ≤ (splitIntoSteps t).length := by
          calc (((splitIntoSteps t).map stepContentCount).filter
              (fun c => c ≤ N)).length
              ≤ ((splitIntoSteps t).map stepContentCount).length :=
                List.length_filter_le _ _
            _ = (splitIntoSteps t).length := List.length_map _ _
        exact_mod_cast hlen
  · intro t N h
    rw [adherence_rate_eq, h]
    rfl
  · intro t N h
    rw [adherence_rate_eq, h]
    rcases eq_or_ne ((splitIntoSteps t).map (enforceStep N)) [] with h0 | h0
    · rw [h0]
      rfl
    · have hemp : ¬(((splitIntoSteps t).map (enforceStep N)).isEmpty = true) := by
        intro he
        exact h0 (List.isEmpty_iff.mp he)
      rw [if_neg hemp]
      have hfilter : (((splitIntoSteps t).map (enforceStep N)).map
          stepContentCount).filter (fun c => c ≤ N) =
            ((splitIntoSteps t).map (enforceStep N)).map stepContentCount := by
        rw [List.filter_eq_self]
        intro a ha
        obtain ⟨e, he, rfl⟩ := List.mem_map.mp ha
        obtain ⟨s, _, rfl⟩ := List.mem_map.mp he
        exact decide_eq_true (stepContentCount_enforceStep N s)
      rw [hfilter, List.length_map]
      exact div_self (Nat.cast_ne_zero.mpr (List.length_pos.mpr h0).ne')

/-- Witness for C4 on concrete inputs: the range bounds, the zero-step case
(a blank text) and the conditional round-trip identity on a text whose
enforced output re-splits into exactly the enforced steps. -/
theorem claim_C4_witness :
    (0 ≤ (analyzeAdherence (ofS "a b c") 1).adherence_rate ∧
        (analyzeAdherence (ofS "a b c") 1).adherence_rate ≤ 1) ∧
      (analyzeAdherence (ofS "   ") 1).adherence_rate = 1 ∧
      (analyzeAdherence (enforceWordLimit (ofS "1. a b c\n2. d e f") 2)
        2).adherence_rate = 1 :=
  ⟨claim_C4.1 (ofS "a b c") 1,
    claim_C4.2.1 (ofS "   ") 1 (by decide),
    claim_C4.2.2 (ofS "1. a b c\n2. d e f") 2 (by decide)⟩

end CoD
